import Mathlib

/-!
# Verification of the dependency-graph / critical-path engine

Shallow embedding of `lib/dependency-graph.ts` (class `DependencyGraphService`):
`validateDependency`, `calculateCriticalPath` and their helpers
`buildAdjacencyList`, `detectCycleDFS`, `detectCycles`, `topologicalSort`,
`calculateForwardPass`, `calculateBackwardPass`, `identifyCriticalPath`.

Modelling conventions:
* Task ids are natural numbers (database auto-increment ids).  JavaScript
  object keys that are array-index-like strings enumerate in ascending
  numeric order, so `Object.keys`/`Object.entries`/`Object.values` over the
  id-keyed maps are modelled by the ascending sorted list of ids (`keysOf`).
* `Date` values are modelled as integer millisecond offsets; the engine's
  base time (`new Date()` captured at the start of the forward pass) is the
  zero offset, so every computed time is an `Int` relative to that base.
* `estimatedDays` is an SQL `INTEGER` column, modelled as `Int`;
  `durationMs = estimatedDays * 24 * 60 * 60 * 1000` exactly as in source.
* The schedule map `{ [todoId]: {...} }` is modelled as a total function
  `Nat → ScheduleEntry`; only the ids in `keysOf todos` are meaningful
  (the JavaScript object has exactly those keys).
* The recursive DFS and the Kahn queue loop take a fuel argument whose
  exhaustion is signalled (`ok := false` for the DFS, truncated loop for
  Kahn).  The supplied fuel provably never runs out (see
  `dfs_ok_of_fuel` and the Kahn invariant lemmas below), so the embedding
  computes exactly what the JavaScript recursion/loop computes.
-/

namespace DepGraph

/-- A task as consumed by the engine: `TodoWithDependencies`.  The
`dependencies: { dependsOnId: number }[]` array is modelled as the list of
the `dependsOnId` values.  The remaining fields of the interface
(`title`, `completed`, `dueDate`, `dependents`, `earliestStartDate`,
`criticalPathLength`, `isOnCriticalPath`) are never read by any of the
engine's computations and are omitted. -/
structure Todo where
  id : Nat
  estimatedDays : Int
  dependencies : List Nat
  deriving Repr, DecidableEq

/-- One entry of the per-task schedule map.  All four time fields are
millisecond offsets from the engine's base time. -/
@[ext]
structure ScheduleEntry where
  earliestStart : Int
  earliestFinish : Int
  latestStart : Int
  latestFinish : Int
  slack : Int
  isOnCriticalPath : Bool
  deriving Repr, DecidableEq

/-- The `circularDependency` payload of an invalid result. -/
structure CircularDependency where
  cycle : List Nat
  message : String
  deriving Repr, DecidableEq

/-- `DependencyGraphResult`: the optional fields are `none` when the
JavaScript object omits them. -/
structure DependencyGraphResult where
  isValid : Bool
  circularDependency : Option CircularDependency := none
  criticalPath : Option (List Nat) := none
  scheduleData : Option (Nat → ScheduleEntry) := none

/-- Result of `validateDependency`. -/
structure ValidationResult where
  isValid : Bool
  cycle : Option (List Nat) := none
  deriving Repr, DecidableEq

/-- `buildAdjacencyList`: every todo id gets the concatenated
`dependsOnId` lists of the todos carrying that id (for the well-formed
inputs of interest ids are distinct, so this is just that todo's
dependency list); any other number maps to the empty list, matching the
`adjacencyList[node] || []` read. -/
def buildAdjacencyList (todos : List Todo) : Nat → List Nat := fun k =>
  ((todos.filter (fun t => t.id == k)).map Todo.dependencies).flatten

/-- The key list of the id-keyed JavaScript objects built from `todos`
(`adjacencyList`, `inDegree`, `scheduleData`): the distinct ids in
ascending order. -/
def keysOf (todos : List Todo) : List Nat :=
  List.insertionSort (· ≤ ·) ((todos.map Todo.id).dedup)

/-- The edge relation of the dependency graph: `u` depends on `v`. -/
def DependsOn (todos : List Todo) (u v : Nat) : Prop :=
  v ∈ buildAdjacencyList todos u

instance (todos : List Todo) (u v : Nat) : Decidable (DependsOn todos u v) := by
  unfold DependsOn; infer_instance

/-- The dependency graph has a (directed) cycle. -/
def HasCycle (todos : List Todo) : Prop :=
  ∃ n, Relation.TransGen (DependsOn todos) n n

/-- Return value of the cycle-detecting DFS: the detected cycle (if any),
the final `visited` and `recursionStack` sets, and an `ok` flag that is
`false` only when the modelling fuel ran out (provably never for the fuel
supplied by `detectCycles`/`validateDependency`). -/
structure DfsResult where
  cycle : Option (List Nat)
  visited : Finset Nat
  stack : Finset Nat
  ok : Bool

/-- The `for (const neighbor of neighbors)` loop inside `detectCycleDFS`,
abstracted over the recursive call (`dfsf`, instantiated with
`detectCycleDFS` at the remaining fuel).  `path` already ends with the
current node. -/
def dfsNeighborsAux (dfsf : Nat → Finset Nat → Finset Nat → List Nat → DfsResult) :
    List Nat → Finset Nat → Finset Nat → List Nat → DfsResult
  | [], visited, stack, _ => ⟨none, visited, stack, true⟩
  | n :: ns, visited, stack, path =>
    if n ∉ visited then
      let r := dfsf n visited stack path
      match r.cycle, r.ok with
      | some _, _ => r
      | none, false => r
      | none, true => dfsNeighborsAux dfsf ns r.visited r.stack path
    else if n ∈ stack then
      ⟨some ((path.drop (path.indexOf n)) ++ [n]), visited, stack, true⟩
    else
      dfsNeighborsAux dfsf ns visited stack path

/-- `detectCycleDFS(node, adjacencyList, visited, recursionStack, path)`.
The JavaScript function mutates the shared `visited`/`recursionStack` sets
and passes a copy of `path` to each recursive call; the model threads the
two sets through and passes `path` by value, which is equivalent. -/
def detectCycleDFS (adj : Nat → List Nat) : Nat → Nat → Finset Nat → Finset Nat →
    List Nat → DfsResult
  | 0, _, visited, stack, _ => ⟨none, visited, stack, false⟩
  | fuel + 1, node, visited, stack, path =>
    let r := dfsNeighborsAux (detectCycleDFS adj fuel) (adj node) (insert node visited)
      (insert node stack) (path ++ [node])
    match r.cycle with
    | some _ => r
    | none => ⟨none, r.visited, r.stack.erase node, r.ok⟩

/-- The neighbour loop at a given fuel level. -/
def dfsNeighbors (adj : Nat → List Nat) (fuel : Nat) :
    List Nat → Finset Nat → Finset Nat → List Nat → DfsResult :=
  dfsNeighborsAux (detectCycleDFS adj fuel)

/-- All ids the DFS can ever visit: todo ids plus every referenced
`dependsOnId`.  Used only to size the modelling fuel. -/
def univOf (todos : List Todo) : Finset Nat :=
  (todos.map Todo.id).toFinset ∪ ((todos.map Todo.dependencies).flatten).toFinset

/-- Fuel that provably suffices for the DFS (`dfs_ok_of_fuel`). -/
def dfsFuel (todos : List Todo) : Nat := (univOf todos).card + 1

/-- The `for (const nodeId of Object.keys(adjacencyList))` loop shared by
`detectCycles` and `validateDependency`: run the DFS from every not yet
visited key, returning the first cycle found. -/
def detectCyclesLoop (adj : Nat → List Nat) (fuel : Nat) :
    List Nat → Finset Nat → Finset Nat → Option (List Nat)
  | [], _, _ => none
  | k :: ks, visited, stack =>
    if k ∉ visited then
      let r := detectCycleDFS adj fuel k visited stack []
      match r.cycle with
      | some c => some c
      | none => detectCyclesLoop adj fuel ks r.visited r.stack
    else
      detectCyclesLoop adj fuel ks visited stack

/-- The human-readable message `"Circular dependency detected: a → b → …"`. -/
def cycleMessage (c : List Nat) : String :=
  "Circular dependency detected: " ++ String.intercalate " → " (c.map toString)

/-- `detectCycles(adjacencyList)`, applied to the adjacency list built
from `todos` (which is how `calculateCriticalPath` invokes it). -/
def detectCycles (todos : List Todo) : DependencyGraphResult :=
  match detectCyclesLoop (buildAdjacencyList todos) (dfsFuel todos) (keysOf todos) ∅ ∅ with
  | some c => { isValid := false, circularDependency := some ⟨c, cycleMessage c⟩ }
  | none => { isValid := true }

/-- `validateDependency(todos, fromTodoId, toTodoId)`: reject
self-dependencies outright, otherwise add the proposed edge to the
adjacency list and run the cycle DFS over all keys.  Adding the edge also
adds `fromTodoId` as a key when it was not one. -/
def validateDependency (todos : List Todo) (fromTodoId toTodoId : Nat) : ValidationResult :=
  if fromTodoId = toTodoId then
    { isValid := false, cycle := some [fromTodoId] }
  else
    let adj0 := buildAdjacencyList todos
    let adj := fun k => if k = fromTodoId then adj0 k ++ [toTodoId] else adj0 k
    let ks := List.insertionSort (· ≤ ·) ((fromTodoId :: todos.map Todo.id).dedup)
    match detectCyclesLoop adj (dfsFuel todos + 1) ks ∅ ∅ with
    | some c => { isValid := false, cycle := some c }
    | none => { isValid := true }

/-- Initial in-degree map of `topologicalSort`: each dependency entry of a
todo increments the count at that todo's id. -/
def initInDegree (todos : List Todo) : Nat → Int := fun k =>
  ((todos.filter (fun t => t.id == k)).map (fun t => (t.dependencies.length : Int))).sum

/-- One step of the inner `todos.forEach` of the Kahn loop, for the
dequeued id `c`: a todo depending on `c` has its id's in-degree
decremented, and the id is enqueued when the decremented value is 0. -/
def kahnVisit (c : Nat) (s : (Nat → Int) × List Nat) (t : Todo) : (Nat → Int) × List Nat :=
  if t.dependencies.contains c then
    let deg := Function.update s.1 t.id (s.1 t.id - 1)
    (deg, if deg t.id = 0 then s.2 ++ [t.id] else s.2)
  else s

/-- The `while (queue.length > 0)` loop of `topologicalSort`.  The fuel
never runs out for the value supplied by `topologicalSort` (the processed
ids are distinct keys, so there are at most `todos.length` iterations). -/
def kahnLoop (todos : List Todo) : Nat → (Nat → Int) → List Nat → List Nat → List Nat
  | _, _, [], result => result
  | 0, _, _ :: _, result => result
  | fuel + 1, deg, c :: rest, result =>
    let s := todos.foldl (kahnVisit c) (deg, rest)
    kahnLoop todos fuel s.1 s.2 (result ++ [c])

/-- `topologicalSort(todos)`: Kahn's algorithm; `none` when the result
misses some todo. -/
def topologicalSort (todos : List Todo) : Option (List Nat) :=
  let deg := initInDegree todos
  let queue := (keysOf todos).filter (fun k => deg k == 0)
  let result := kahnLoop todos (todos.length + 1) deg queue []
  if result.length = todos.length then some result else none

/-- Millisecond duration of a task. -/
def duration (t : Todo) : Int := t.estimatedDays * (24 * 60 * 60 * 1000)

/-- The all-zero schedule entry every id starts from (all four times at
the base time, slack 0, not critical). -/
def entry0 : ScheduleEntry := ⟨0, 0, 0, 0, 0, false⟩

/-- `todoMap.get(todoId)`: a JavaScript `Map` built from an association
list keeps the last binding for a key, hence `getLast?`.  The fallback is
never reached when `k` is a todo id. -/
def findTodo (todos : List Todo) (k : Nat) : Todo :=
  ((todos.filter (fun t => t.id == k)).getLast?).getD ⟨k, 0, []⟩

/-- One step of the forward pass for the id `k`: earliest start is the
maximum earliest finish over dependencies (base time 0 when none),
earliest finish adds the duration. -/
def forwardStep (todos : List Todo) (sd : Nat → ScheduleEntry) (k : Nat) :
    Nat → ScheduleEntry :=
  let t := findTodo todos k
  let maxFin := (t.dependencies.map (fun d => (sd d).earliestFinish)).foldl max 0
  Function.update sd k
    { sd k with earliestStart := maxFin, earliestFinish := maxFin + duration t }

/-- `calculateForwardPass(todos, topologicalOrder)`. -/
def calculateForwardPass (todos : List Todo) (order : List Nat) : Nat → ScheduleEntry :=
  order.foldl (forwardStep todos) (fun _ => entry0)

/-- `Math.max(...)` over a list produced from a provably nonempty
collection (the empty case mirrors no source behaviour and is unreachable
in every use). -/
def maxInt : List Int → Int
  | [] => 0
  | x :: xs => xs.foldl max x

/-- A task is *independent* when it has no dependencies and no other task
depends on it. -/
def isIndependent (todos : List Todo) (t : Todo) : Bool :=
  t.dependencies.isEmpty && !(todos.any (fun o => o.dependencies.contains t.id))

/-- The `independentTasks` list of the backward pass. -/
def independentTasks (todos : List Todo) : List Todo :=
  todos.filter (isIndependent todos)

/-- `projectEndTime`: the largest earliest finish over all schedule
entries. -/
def projectEndTime (todos : List Todo) (sd : Nat → ScheduleEntry) : Int :=
  maxInt ((keysOf todos).map (fun k => (sd k).earliestFinish))

/-- One step of the backward pass over the reversed topological order
(first regime: tasks that are not independent).  `pend` is the project
end time. -/
def backwardConnectedStep (todos : List Todo) (pend : Int) (sd : Nat → ScheduleEntry)
    (k : Nat) : Nat → ScheduleEntry :=
  if (independentTasks todos).any (fun t => t.id == k) then sd
  else
    let t := findTodo todos k
    let succs := todos.filter (fun s => s.dependencies.contains k)
    let lf := if succs.isEmpty then pend
      else (succs.map (fun s => (sd s.id).latestStart)).foldl min pend
    let ls := lf - duration t
    let slack := ls - (sd k).earliestStart
    Function.update sd k
      { sd k with latestFinish := lf
                  latestStart := ls
                  slack := slack
                  isOnCriticalPath := decide (|slack| < 1000) }

/-- One step of the second regime, over `independentTasks`: critical iff
the task's earliest finish reaches the project end (1s tolerance); latest
times pinned to the project end. -/
def backwardIndependentStep (pend : Int) (sd : Nat → ScheduleEntry) (t : Todo) :
    Nat → ScheduleEntry :=
  let taskEnd := (sd t.id).earliestFinish
  let isCrit := decide (taskEnd ≥ pend - 1000)
  Function.update sd t.id
    { sd t.id with isOnCriticalPath := isCrit
                   latestFinish := pend
                   latestStart := pend - duration t
                   slack := if taskEnd ≥ pend - 1000 then 0 else pend - taskEnd }

/-- One step of the third regime (no task in the whole graph has a
dependency): only maximum-duration tasks are critical; the others get
slack `maxDuration − ownDuration` and latest times shifted by that slack
from their earliest times. -/
def backwardAllIndependentStep (maxDur : Int) (sd : Nat → ScheduleEntry) (t : Todo) :
    Nat → ScheduleEntry :=
  if t.estimatedDays = maxDur then
    Function.update sd t.id { sd t.id with isOnCriticalPath := true }
  else
    let slack := maxDur * (24 * 60 * 60 * 1000) - duration t
    Function.update sd t.id
      { sd t.id with isOnCriticalPath := false
                     slack := slack
                     latestFinish := (sd t.id).earliestFinish + slack
                     latestStart := (sd t.id).earliestStart + slack }

/-- `calculateBackwardPass(todos, scheduleData, topologicalOrder)`:
regime 1 over the reversed order (skipping independents), then regime 2
over the independents, then regime 3 when no task at all has a
dependency.  (The `criticalPathDuration` computed inside regime 2 of the
source is never read afterwards and is omitted.) -/
def calculateBackwardPass (todos : List Todo) (order : List Nat)
    (sd : Nat → ScheduleEntry) : Nat → ScheduleEntry :=
  let pend := projectEndTime todos sd
  let sd1 := (order.reverse).foldl (backwardConnectedStep todos pend) sd
  let sd2 := if (independentTasks todos).isEmpty then sd1
    else (independentTasks todos).foldl (backwardIndependentStep pend) sd1
  if todos.any (fun t => !t.dependencies.isEmpty) then sd2
  else if todos.isEmpty then sd2
  else todos.foldl (backwardAllIndependentStep (maxInt (todos.map Todo.estimatedDays))) sd2

/-- `identifyCriticalPath(scheduleData)`: the flagged ids, sorted
ascending by earliest start (a stable comparator sort over the ascending
key enumeration). -/
def identifyCriticalPath (todos : List Todo) (sd : Nat → ScheduleEntry) : List Nat :=
  List.insertionSort (fun a b => (sd a).earliestStart ≤ (sd b).earliestStart)
    ((keysOf todos).filter (fun k => (sd k).isOnCriticalPath))

/-- `calculateCriticalPath(todos)`. -/
def calculateCriticalPath (todos : List Todo) : DependencyGraphResult :=
  if todos.isEmpty then
    { isValid := true, criticalPath := some [], scheduleData := some (fun _ => entry0) }
  else
    let cycleCheck := detectCycles todos
    if !cycleCheck.isValid then cycleCheck
    else
      match topologicalSort todos with
      | none => { isValid := false }
      | some order =>
        let sd := calculateForwardPass todos order
        let sd2 := calculateBackwardPass todos order sd
        { isValid := true, criticalPath := some (identifyCriticalPath todos sd2),
          scheduleData := some sd2 }

/-! ## Generic list and order helpers -/

theorem foldl_max_le_iff (l : List Int) (a b : Int) :
    l.foldl max a ≤ b ↔ a ≤ b ∧ ∀ x ∈ l, x ≤ b := by
  induction l generalizing a with
  | nil => simp
  | cons y ys ih =>
    simp only [List.foldl_cons, ih, max_le_iff, List.mem_cons]
    constructor
    · rintro ⟨⟨h1, h2⟩, h3⟩
      exact ⟨h1, fun x hx => hx.elim (fun hxy => hxy ▸ h2) (h3 x)⟩
    · rintro ⟨h1, h2⟩
      exact ⟨⟨h1, h2 y (Or.inl rfl)⟩, fun x hx => h2 x (Or.inr hx)⟩

theorem le_foldl_max_seed (l : List Int) (a : Int) : a ≤ l.foldl max a := by
  have := (foldl_max_le_iff l a (l.foldl max a)).1 le_rfl
  exact this.1

theorem le_foldl_max_mem (l : List Int) (a : Int) {x : Int} (hx : x ∈ l) :
    x ≤ l.foldl max a := by
  have := (foldl_max_le_iff l a (l.foldl max a)).1 le_rfl
  exact this.2 x hx

theorem le_foldl_min_iff (l : List Int) (a b : Int) :
    b ≤ l.foldl min a ↔ b ≤ a ∧ ∀ x ∈ l, b ≤ x := by
  induction l generalizing a with
  | nil => simp
  | cons y ys ih =>
    simp only [List.foldl_cons, ih, le_min_iff, List.mem_cons]
    constructor
    · rintro ⟨⟨h1, h2⟩, h3⟩
      exact ⟨h1, fun x hx => hx.elim (fun hxy => hxy ▸ h2) (h3 x)⟩
    · rintro ⟨h1, h2⟩
      exact ⟨⟨h1, h2 y (Or.inl rfl)⟩, fun x hx => h2 x (Or.inr hx)⟩

theorem le_maxInt_of_mem {l : List Int} {x : Int} (hx : x ∈ l) : x ≤ maxInt l := by
  cases l with
  | nil => cases hx
  | cons y ys =>
    rcases List.mem_cons.1 hx with h | h
    · exact h ▸ le_foldl_max_seed ys y
    · exact le_foldl_max_mem ys y h

theorem maxInt_le_iff {l : List Int} (hl : l ≠ []) (b : Int) :
    maxInt l ≤ b ↔ ∀ x ∈ l, x ≤ b := by
  cases l with
  | nil => exact absurd rfl hl
  | cons y ys =>
    simp only [maxInt, foldl_max_le_iff, List.mem_cons]
    constructor
    · rintro ⟨h1, h2⟩ x hx
      exact hx.elim (fun hxy => hxy ▸ h1) (h2 x)
    · intro h
      exact ⟨h y (Or.inl rfl), fun x hx => h x (Or.inr hx)⟩

/-- A nonempty `Chain'` whose last element relates onward extends a
`TransGen` walk from its head. -/
theorem chain_transGen {r : Nat → Nat → Prop} :
    ∀ (l : List Nat) (a b : Nat), List.Chain r a l → l.getLast? = some b →
      Relation.TransGen r a b := by
  intro l
  induction l with
  | nil => intro a b _ h; cases h
  | cons y ys ih =>
    intro a b hch hlast
    rcases List.chain_cons.1 hch with ⟨hr, hch'⟩
    cases ys with
    | nil =>
      simp only [List.getLast?_singleton, Option.some.injEq] at hlast
      exact hlast ▸ Relation.TransGen.single hr
    | cons z zs =>
      have hlast' : (z :: zs).getLast? = some b := by
        simpa using hlast
      exact Relation.TransGen.head hr (ih y b hch' hlast')

/-- Pigeonhole: in a finite set in which every element has an `r`-successor
inside the set, some element reaches itself. -/
theorem exists_transGen_self {r : Nat → Nat → Prop} (S : Finset Nat)
    (hne : S.Nonempty) (hstep : ∀ a ∈ S, ∃ b ∈ S, r a b) :
    ∃ a ∈ S, Relation.TransGen r a a := by
  classical
  obtain ⟨a0, ha0⟩ := hne
  let g : ℕ → {x // x ∈ S} := fun n => Nat.rec ⟨a0, ha0⟩
    (fun _ p => ⟨(hstep p.1 p.2).choose, (hstep p.1 p.2).choose_spec.1⟩) n
  have hg : ∀ n, r (g n).1 (g (n + 1)).1 := by
    intro n
    exact (hstep (g n).1 (g n).2).choose_spec.2
  have hmono : ∀ i j, i < j → Relation.TransGen r (g i).1 (g j).1 := by
    intro i j hij
    induction j with
    | zero => cases hij
    | succ j ihj =>
      rcases Nat.lt_succ_iff_lt_or_eq.1 hij with h | h
      · exact (ihj h).tail (hg j)
      · exact h ▸ Relation.TransGen.single (hg i)
  obtain ⟨i, j, hne', heq⟩ := Finite.exists_ne_map_eq_of_infinite g
  rcases lt_or_gt_of_ne hne' with h | h
  · refine ⟨(g i).1, (g i).2, ?_⟩
    have h2 := hmono i j h
    rw [heq] at h2 ⊢
    exact h2
  · refine ⟨(g j).1, (g j).2, ?_⟩
    have h2 := hmono j i h
    rw [heq] at h2
    exact h2

/-! ## Keys and adjacency -/

theorem mem_keysOf {todos : List Todo} {k : Nat} :
    k ∈ keysOf todos ↔ k ∈ todos.map Todo.id := by
  rw [keysOf, List.mem_insertionSort, List.mem_dedup]

theorem keysOf_nodup (todos : List Todo) : (keysOf todos).Nodup :=
  (List.perm_insertionSort _ _).nodup_iff.2 (List.nodup_dedup _)

theorem mem_buildAdjacencyList {todos : List Todo} {u v : Nat} :
    v ∈ buildAdjacencyList todos u ↔ ∃ t ∈ todos, t.id = u ∧ v ∈ t.dependencies := by
  simp only [buildAdjacencyList, List.mem_flatten, List.mem_map, List.mem_filter,
    beq_iff_eq]
  constructor
  · rintro ⟨l, ⟨t, ⟨ht, hid⟩, rfl⟩, hv⟩
    exact ⟨t, ht, hid, hv⟩
  · rintro ⟨t, ht, hid, hv⟩
    exact ⟨t.dependencies, ⟨t, ⟨ht, hid⟩, rfl⟩, hv⟩

theorem dependsOn_iff {todos : List Todo} {u v : Nat} :
    DependsOn todos u v ↔ ∃ t ∈ todos, t.id = u ∧ v ∈ t.dependencies :=
  mem_buildAdjacencyList

theorem mem_ids_of_dependsOn {todos : List Todo} {u v : Nat}
    (h : DependsOn todos u v) : u ∈ todos.map Todo.id := by
  rcases dependsOn_iff.1 h with ⟨t, ht, hid, _⟩
  exact List.mem_map.2 ⟨t, ht, hid⟩

theorem adj_subset_univ (todos : List Todo) (u : Nat) :
    ∀ v ∈ buildAdjacencyList todos u, v ∈ univOf todos := by
  intro v hv
  rcases mem_buildAdjacencyList.1 hv with ⟨t, ht, _, hvt⟩
  refine Finset.mem_union_right _ ?_
  simp only [List.mem_toFinset, List.mem_flatten, List.mem_map]
  exact ⟨t.dependencies, ⟨t, ht, rfl⟩, hvt⟩

theorem keys_subset_univ (todos : List Todo) :
    ∀ k ∈ keysOf todos, k ∈ univOf todos := by
  intro k hk
  exact Finset.mem_union_left _ (List.mem_toFinset.2 (mem_keysOf.1 hk))

/-! ## DFS step lemmas -/

theorem detectCycleDFS_zero (adj : Nat → List Nat) (node : Nat) (V S : Finset Nat)
    (p : List Nat) : detectCycleDFS adj 0 node V S p = ⟨none, V, S, false⟩ := by
  simp [detectCycleDFS]

theorem detectCycleDFS_succ_of_cycle {adj : Nat → List Nat} {f node : Nat}
    {V S : Finset Nat} {p : List Nat} {c : List Nat}
    (h : (dfsNeighbors adj f (adj node) (insert node V) (insert node S) (p ++ [node])).cycle
      = some c) :
    detectCycleDFS adj (f + 1) node V S p =
      dfsNeighbors adj f (adj node) (insert node V) (insert node S) (p ++ [node]) := by
  show (match (dfsNeighbors adj f (adj node) (insert node V) (insert node S)
      (p ++ [node])).cycle with
    | some _ => dfsNeighbors adj f (adj node) (insert node V) (insert node S) (p ++ [node])
    | none => ⟨none,
        (dfsNeighbors adj f (adj node) (insert node V) (insert node S) (p ++ [node])).visited,
        (dfsNeighbors adj f (adj node) (insert node V) (insert node S)
          (p ++ [node])).stack.erase node,
        (dfsNeighbors adj f (adj node) (insert node V) (insert node S) (p ++ [node])).ok⟩)
    = dfsNeighbors adj f (adj node) (insert node V) (insert node S) (p ++ [node])
  simp only [h]

theorem detectCycleDFS_succ_of_none {adj : Nat → List Nat} {f node : Nat}
    {V S : Finset Nat} {p : List Nat}
    (h : (dfsNeighbors adj f (adj node) (insert node V) (insert node S) (p ++ [node])).cycle
      = none) :
    detectCycleDFS adj (f + 1) node V S p =
      ⟨none,
        (dfsNeighbors adj f (adj node) (insert node V) (insert node S) (p ++ [node])).visited,
        (dfsNeighbors adj f (adj node) (insert node V) (insert node S) (p ++ [node])).stack.erase
          node,
        (dfsNeighbors adj f (adj node) (insert node V) (insert node S) (p ++ [node])).ok⟩ := by
  show (match (dfsNeighbors adj f (adj node) (insert node V) (insert node S)
      (p ++ [node])).cycle with
    | some _ => dfsNeighbors adj f (adj node) (insert node V) (insert node S) (p ++ [node])
    | none => ⟨none,
        (dfsNeighbors adj f (adj node) (insert node V) (insert node S) (p ++ [node])).visited,
        (dfsNeighbors adj f (adj node) (insert node V) (insert node S)
          (p ++ [node])).stack.erase node,
        (dfsNeighbors adj f (adj node) (insert node V) (insert node S) (p ++ [node])).ok⟩)
    = _
  simp only [h]

theorem dfsNeighbors_nil (adj : Nat → List Nat) (f : Nat) (V S : Finset Nat)
    (p : List Nat) : dfsNeighbors adj f [] V S p = ⟨none, V, S, true⟩ := rfl

theorem dfsNeighbors_cons_stacked {adj : Nat → List Nat} {f n : Nat} {ns : List Nat}
    {V S : Finset Nat} {p : List Nat} (hV : n ∈ V) (hS : n ∈ S) :
    dfsNeighbors adj f (n :: ns) V S p =
      ⟨some ((p.drop (p.indexOf n)) ++ [n]), V, S, true⟩ := by
  show dfsNeighborsAux (detectCycleDFS adj f) (n :: ns) V S p = _
  rw [dfsNeighborsAux]
  simp [hV, hS]

theorem dfsNeighbors_cons_black {adj : Nat → List Nat} {f n : Nat} {ns : List Nat}
    {V S : Finset Nat} {p : List Nat} (hV : n ∈ V) (hS : n ∉ S) :
    dfsNeighbors adj f (n :: ns) V S p = dfsNeighbors adj f ns V S p := by
  show dfsNeighborsAux (detectCycleDFS adj f) (n :: ns) V S p = _
  rw [dfsNeighborsAux]
  simp [hV, hS]
  rfl

theorem dfsNeighbors_cons_new_cycle {adj : Nat → List Nat} {f n : Nat} {ns : List Nat}
    {V S : Finset Nat} {p : List Nat} {c : List Nat} (hV : n ∉ V)
    (h : (detectCycleDFS adj f n V S p).cycle = some c) :
    dfsNeighbors adj f (n :: ns) V S p = detectCycleDFS adj f n V S p := by
  show dfsNeighborsAux (detectCycleDFS adj f) (n :: ns) V S p = _
  rw [dfsNeighborsAux, if_pos hV]
  simp only [h]

theorem dfsNeighbors_cons_new_bad {adj : Nat → List Nat} {f n : Nat} {ns : List Nat}
    {V S : Finset Nat} {p : List Nat} (hV : n ∉ V)
    (h : (detectCycleDFS adj f n V S p).cycle = none)
    (hok : (detectCycleDFS adj f n V S p).ok = false) :
    dfsNeighbors adj f (n :: ns) V S p = detectCycleDFS adj f n V S p := by
  show dfsNeighborsAux (detectCycleDFS adj f) (n :: ns) V S p = _
  rw [dfsNeighborsAux, if_pos hV]
  simp only [h, hok]

theorem dfsNeighbors_cons_new_ok {adj : Nat → List Nat} {f n : Nat} {ns : List Nat}
    {V S : Finset Nat} {p : List Nat} (hV : n ∉ V)
    (h : (detectCycleDFS adj f n V S p).cycle = none)
    (hok : (detectCycleDFS adj f n V S p).ok = true) :
    dfsNeighbors adj f (n :: ns) V S p =
      dfsNeighbors adj f ns (detectCycleDFS adj f n V S p).visited
        (detectCycleDFS adj f n V S p).stack p := by
  show dfsNeighborsAux (detectCycleDFS adj f) (n :: ns) V S p = _
  rw [dfsNeighborsAux, if_pos hV]
  simp only [h, hok]
  rfl

/-! ## DFS visited-set bounds and fuel sufficiency -/

theorem dfs_visited_spec (adj : Nat → List Nat) (U : Finset Nat)
    (hadjU : ∀ u, ∀ v ∈ adj u, v ∈ U) : ∀ fuel : Nat,
    (∀ node V S p, node ∈ U → V ⊆ U →
      V ⊆ (detectCycleDFS adj fuel node V S p).visited ∧
        (detectCycleDFS adj fuel node V S p).visited ⊆ U) ∧
    (∀ ns V S p, (∀ n ∈ ns, n ∈ U) → V ⊆ U →
      V ⊆ (dfsNeighbors adj fuel ns V S p).visited ∧
        (dfsNeighbors adj fuel ns V S p).visited ⊆ U) := by
  intro fuel
  induction fuel using Nat.strong_induction_on with
  | _ fuel ih =>
    have hdfs : ∀ node V S p, node ∈ U → V ⊆ U →
        V ⊆ (detectCycleDFS adj fuel node V S p).visited ∧
          (detectCycleDFS adj fuel node V S p).visited ⊆ U := by
      intro node V S p hnode hV
      cases fuel with
      | zero => rw [detectCycleDFS_zero]; exact ⟨subset_rfl, hV⟩
      | succ f =>
        have hN := (ih f (Nat.lt_succ_self f)).2 (adj node) (insert node V)
          (insert node S) (p ++ [node]) (fun n hn => hadjU node n hn)
          (Finset.insert_subset hnode hV)
        have hsub := Finset.subset_insert node V
        cases hc : (dfsNeighbors adj f (adj node) (insert node V) (insert node S)
            (p ++ [node])).cycle with
        | some c =>
          rw [detectCycleDFS_succ_of_cycle hc]
          exact ⟨subset_trans hsub hN.1, hN.2⟩
        | none =>
          rw [detectCycleDFS_succ_of_none hc]
          exact ⟨subset_trans hsub hN.1, hN.2⟩
    refine ⟨hdfs, ?_⟩
    intro ns
    induction ns with
    | nil =>
      intro V S p _ hV
      rw [dfsNeighbors_nil]
      exact ⟨subset_rfl, hV⟩
    | cons n ns ihns =>
      intro V S p hns hV
      by_cases hnV : n ∈ V
      · by_cases hnS : n ∈ S
        · rw [dfsNeighbors_cons_stacked hnV hnS]
          exact ⟨subset_rfl, hV⟩
        · rw [dfsNeighbors_cons_black hnV hnS]
          exact ihns V S p (fun m hm => hns m (List.mem_cons_of_mem n hm)) hV
      · have hd := hdfs n V S p (hns n (List.mem_cons_self n ns)) hV
        cases hc : (detectCycleDFS adj fuel n V S p).cycle with
        | some c =>
          rw [dfsNeighbors_cons_new_cycle hnV hc]
          exact hd
        | none =>
          cases hok : (detectCycleDFS adj fuel n V S p).ok with
          | false =>
            rw [dfsNeighbors_cons_new_bad hnV hc hok]
            exact hd
          | true =>
            rw [dfsNeighbors_cons_new_ok hnV hc hok]
            have h2 := ihns (detectCycleDFS adj fuel n V S p).visited
              (detectCycleDFS adj fuel n V S p).stack p
              (fun m hm => hns m (List.mem_cons_of_mem n hm)) hd.2
            exact ⟨subset_trans hd.1 h2.1, h2.2⟩

theorem dfs_ok_spec (adj : Nat → List Nat) (U : Finset Nat)
    (hadjU : ∀ u, ∀ v ∈ adj u, v ∈ U) : ∀ fuel : Nat,
    (∀ node V S p, node ∈ U → node ∉ V → V ⊆ U → U.card - V.card ≤ fuel →
      (detectCycleDFS adj fuel node V S p).ok = true) ∧
    (∀ ns V S p, (∀ n ∈ ns, n ∈ U) → V ⊆ U → U.card - V.card ≤ fuel →
      (dfsNeighbors adj fuel ns V S p).ok = true) := by
  intro fuel
  induction fuel using Nat.strong_induction_on with
  | _ fuel ih =>
    have hdfs : ∀ node V S p, node ∈ U → node ∉ V → V ⊆ U → U.card - V.card ≤ fuel →
        (detectCycleDFS adj fuel node V S p).ok = true := by
      intro node V S p hnode hnV hV hfuel
      have hlt : V.card < U.card :=
        Finset.card_lt_card ((Finset.ssubset_iff_of_subset hV).2 ⟨node, hnode, hnV⟩)
      cases fuel with
      | zero => omega
      | succ f =>
        have hcard : (insert node V).card = V.card + 1 := Finset.card_insert_of_not_mem hnV
        have hVU : insert node V ⊆ U := Finset.insert_subset hnode hV
        have hle : (insert node V).card ≤ U.card := Finset.card_le_card hVU
        have hN := (ih f (Nat.lt_succ_self f)).2 (adj node) (insert node V)
          (insert node S) (p ++ [node]) (fun n hn => hadjU node n hn) hVU (by omega)
        cases hc : (dfsNeighbors adj f (adj node) (insert node V) (insert node S)
            (p ++ [node])).cycle with
        | some c =>
          rw [detectCycleDFS_succ_of_cycle hc]
          exact hN
        | none =>
          rw [detectCycleDFS_succ_of_none hc]
          exact hN
    refine ⟨hdfs, ?_⟩
    intro ns
    induction ns with
    | nil =>
      intro V S p _ _ _
      rw [dfsNeighbors_nil]
    | cons n ns ihns =>
      intro V S p hns hV hfuel
      by_cases hnV : n ∈ V
      · by_cases hnS : n ∈ S
        · rw [dfsNeighbors_cons_stacked hnV hnS]
        · rw [dfsNeighbors_cons_black hnV hnS]
          exact ihns V S p (fun m hm => hns m (List.mem_cons_of_mem n hm)) hV hfuel
      · have hdok := hdfs n V S p (hns n (List.mem_cons_self n ns)) hnV hV hfuel
        cases hc : (detectCycleDFS adj fuel n V S p).cycle with
        | some c =>
          rw [dfsNeighbors_cons_new_cycle hnV hc]
          exact hdok
        | none =>
          cases hok : (detectCycleDFS adj fuel n V S p).ok with
          | false => rw [hok] at hdok; cases hdok
          | true =>
            rw [dfsNeighbors_cons_new_ok hnV hc hok]
            have hvis := (dfs_visited_spec adj U hadjU fuel).1 n V S p
              (hns n (List.mem_cons_self n ns)) hV
            have hcard1 : V.card ≤ (detectCycleDFS adj fuel n V S p).visited.card :=
              Finset.card_le_card hvis.1
            exact ihns (detectCycleDFS adj fuel n V S p).visited
              (detectCycleDFS adj fuel n V S p).stack p
              (fun m hm => hns m (List.mem_cons_of_mem n hm)) hvis.2 (by omega)

/-! ## DFS completeness: the black-set invariant -/

/-- The edge relation induced by an adjacency list. -/
def Rel (adj : Nat → List Nat) (u v : Nat) : Prop := v ∈ adj u

theorem dependsOn_eq_rel (todos : List Todo) :
    DependsOn todos = Rel (buildAdjacencyList todos) := rfl

/-- Invariant of the DFS between top-level calls: the stack is contained
in the visited set, finished (visited, off-stack) nodes have all their
neighbours finished, and no finished node lies on a cycle. -/
def DfsInv (adj : Nat → List Nat) (V S : Finset Nat) : Prop :=
  S ⊆ V ∧
  (∀ u ∈ V, u ∉ S → ∀ v ∈ adj u, v ∈ V ∧ v ∉ S) ∧
  ∀ u ∈ V, u ∉ S → ¬ Relation.TransGen (Rel adj) u u

theorem reflTransGen_black {adj : Nat → List Nat} {V S : Finset Nat}
    (hcl : ∀ u ∈ V, u ∉ S → ∀ v ∈ adj u, v ∈ V ∧ v ∉ S) {a b : Nat}
    (h : Relation.ReflTransGen (Rel adj) a b) (ha : a ∈ V) (has : a ∉ S) :
    b ∈ V ∧ b ∉ S := by
  induction h with
  | refl => exact ⟨ha, has⟩
  | tail _ hbc ih => exact hcl _ ih.1 ih.2 _ hbc

theorem dfsInv_insert {adj : Nat → List Nat} {V S : Finset Nat} {node : Nat}
    (hInv : DfsInv adj V S) (hnV : node ∉ V) :
    DfsInv adj (insert node V) (insert node S) := by
  obtain ⟨hSV, hcl, hacyc⟩ := hInv
  refine ⟨Finset.insert_subset_insert _ hSV, ?_, ?_⟩
  · intro u hu hus v hv
    rcases Finset.mem_insert.1 hu with rfl | hu2
    · exact absurd (Finset.mem_insert_self u S) hus
    · have hus2 : u ∉ S := fun h => hus (Finset.mem_insert_of_mem h)
      have := hcl u hu2 hus2 v hv
      refine ⟨Finset.mem_insert_of_mem this.1, ?_⟩
      intro hvs
      rcases Finset.mem_insert.1 hvs with rfl | hvs2
      · exact hnV this.1
      · exact this.2 hvs2
  · intro u hu hus
    rcases Finset.mem_insert.1 hu with rfl | hu2
    · exact absurd (Finset.mem_insert_self u S) hus
    · exact hacyc u hu2 (fun h => hus (Finset.mem_insert_of_mem h))

theorem dfsInv_finish {adj : Nat → List Nat} {V1 S : Finset Nat} {node : Nat}
    (hInv : DfsInv adj V1 (insert node S)) (hnode : node ∈ V1)
    (hneigh : ∀ v ∈ adj node, v ∈ V1 ∧ v ∉ insert node S) :
    DfsInv adj V1 S := by
  obtain ⟨hSV, hcl, hacyc⟩ := hInv
  have hSV2 : S ⊆ V1 := subset_trans (Finset.subset_insert _ _) hSV
  refine ⟨hSV2, ?_, ?_⟩
  · intro u hu hus v hv
    by_cases hun : u = node
    · subst hun
      have := hneigh v hv
      exact ⟨this.1, fun h => this.2 (Finset.mem_insert_of_mem h)⟩
    · have := hcl u hu (by simp [hun, hus]) v hv
      exact ⟨this.1, fun h => this.2 (Finset.mem_insert_of_mem h)⟩
  · intro u hu hus
    by_cases hun : u = node
    · subst hun
      intro hcyc
      rcases Relation.TransGen.head'_iff.1 hcyc with ⟨v, hv, hvb⟩
      have h1 := hneigh v hv
      have h2 := reflTransGen_black hcl hvb h1.1 h1.2
      exact h2.2 (Finset.mem_insert_self u S)
    · exact hacyc u hu (by simp [hun, hus])

theorem dfs_black_spec (adj : Nat → List Nat) : ∀ fuel : Nat,
    (∀ node V S p, DfsInv adj V S → node ∉ V →
      (detectCycleDFS adj fuel node V S p).cycle = none →
      (detectCycleDFS adj fuel node V S p).ok = true →
      (detectCycleDFS adj fuel node V S p).stack = S ∧
        DfsInv adj (detectCycleDFS adj fuel node V S p).visited S ∧
        V ⊆ (detectCycleDFS adj fuel node V S p).visited ∧
        node ∈ (detectCycleDFS adj fuel node V S p).visited ∧ node ∉ S) ∧
    (∀ ns V S p, DfsInv adj V S →
      (dfsNeighbors adj fuel ns V S p).cycle = none →
      (dfsNeighbors adj fuel ns V S p).ok = true →
      (dfsNeighbors adj fuel ns V S p).stack = S ∧
        DfsInv adj (dfsNeighbors adj fuel ns V S p).visited S ∧
        V ⊆ (dfsNeighbors adj fuel ns V S p).visited ∧
        ∀ n ∈ ns, n ∈ (dfsNeighbors adj fuel ns V S p).visited ∧ n ∉ S) := by
  intro fuel
  induction fuel using Nat.strong_induction_on with
  | _ fuel ih =>
    have hdfs : ∀ node V S p, DfsInv adj V S → node ∉ V →
        (detectCycleDFS adj fuel node V S p).cycle = none →
        (detectCycleDFS adj fuel node V S p).ok = true →
        (detectCycleDFS adj fuel node V S p).stack = S ∧
          DfsInv adj (detectCycleDFS adj fuel node V S p).visited S ∧
          V ⊆ (detectCycleDFS adj fuel node V S p).visited ∧
          node ∈ (detectCycleDFS adj fuel node V S p).visited ∧ node ∉ S := by
      intro node V S p hInv hnV hnone hok
      have hnS : node ∉ S := fun h => hnV (hInv.1 h)
      cases fuel with
      | zero => rw [detectCycleDFS_zero] at hok; cases hok
      | succ f =>
        cases hc : (dfsNeighbors adj f (adj node) (insert node V) (insert node S)
            (p ++ [node])).cycle with
        | some c =>
          rw [detectCycleDFS_succ_of_cycle hc, hc] at hnone
          cases hnone
        | none =>
          rw [detectCycleDFS_succ_of_none hc] at hok ⊢
          have hN := (ih f (Nat.lt_succ_self f)).2 (adj node) (insert node V)
            (insert node S) (p ++ [node]) (dfsInv_insert hInv hnV) hc hok
          obtain ⟨hst, hInv2, hmono, hns⟩ := hN
          have hnodeV : node ∈ (dfsNeighbors adj f (adj node) (insert node V)
              (insert node S) (p ++ [node])).visited :=
            hmono (Finset.mem_insert_self node V)
          refine ⟨?_, ?_, ?_, hnodeV, hnS⟩
          · show (dfsNeighbors adj f (adj node) (insert node V) (insert node S)
              (p ++ [node])).stack.erase node = S
            rw [hst, Finset.erase_insert hnS]
          · exact dfsInv_finish hInv2 hnodeV hns
          · exact subset_trans (Finset.subset_insert node V) hmono
    refine ⟨hdfs, ?_⟩
    intro ns
    induction ns with
    | nil =>
      intro V S p hInv _ _
      rw [dfsNeighbors_nil]
      exact ⟨rfl, hInv, subset_rfl, by simp⟩
    | cons n ns ihns =>
      intro V S p hInv hnone hok
      by_cases hnV : n ∈ V
      · by_cases hnS : n ∈ S
        · rw [dfsNeighbors_cons_stacked hnV hnS] at hnone
          cases hnone
        · rw [dfsNeighbors_cons_black hnV hnS] at hnone hok ⊢
          have hN := ihns V S p hInv hnone hok
          refine ⟨hN.1, hN.2.1, hN.2.2.1, ?_⟩
          intro m hm
          rcases List.mem_cons.1 hm with rfl | hm2
          · exact ⟨hN.2.2.1 hnV, hnS⟩
          · exact hN.2.2.2 m hm2
      · cases hc : (detectCycleDFS adj fuel n V S p).cycle with
        | some c =>
          rw [dfsNeighbors_cons_new_cycle hnV hc, hc] at hnone
          cases hnone
        | none =>
          cases hokd : (detectCycleDFS adj fuel n V S p).ok with
          | false =>
            rw [dfsNeighbors_cons_new_bad hnV hc hokd, hokd] at hok
            cases hok
          | true =>
            rw [dfsNeighbors_cons_new_ok hnV hc hokd] at hnone hok ⊢
            have hD := hdfs n V S p hInv hnV hc hokd
            obtain ⟨hst, hInv2, hmono, hnvis, hnS⟩ := hD
            rw [hst] at hnone hok ⊢
            have hN := ihns (detectCycleDFS adj fuel n V S p).visited S p hInv2 hnone hok
            refine ⟨hN.1, hN.2.1, subset_trans hmono hN.2.2.1, ?_⟩
            intro m hm
            rcases List.mem_cons.1 hm with rfl | hm2
            · exact ⟨hN.2.2.1 hnvis, hnS⟩
            · exact hN.2.2.2 m hm2

/-! ## The detectCycles loop -/

theorem detectCyclesLoop_nil (adj : Nat → List Nat) (fuel : Nat) (V S : Finset Nat) :
    detectCyclesLoop adj fuel [] V S = none := rfl

theorem detectCyclesLoop_cons_visited {adj : Nat → List Nat} {fuel k : Nat}
    {ks : List Nat} {V S : Finset Nat} (h : k ∈ V) :
    detectCyclesLoop adj fuel (k :: ks) V S = detectCyclesLoop adj fuel ks V S := by
  rw [detectCyclesLoop]
  simp [h]

theorem detectCyclesLoop_cons_new_cycle {adj : Nat → List Nat} {fuel k : Nat}
    {ks : List Nat} {V S : Finset Nat} {c : List Nat} (h : k ∉ V)
    (hc : (detectCycleDFS adj fuel k V S []).cycle = some c) :
    detectCyclesLoop adj fuel (k :: ks) V S = some c := by
  rw [detectCyclesLoop, if_pos h]
  simp only [hc]

theorem detectCyclesLoop_cons_new_none {adj : Nat → List Nat} {fuel k : Nat}
    {ks : List Nat} {V S : Finset Nat} (h : k ∉ V)
    (hc : (detectCycleDFS adj fuel k V S []).cycle = none) :
    detectCyclesLoop adj fuel (k :: ks) V S =
      detectCyclesLoop adj fuel ks (detectCycleDFS adj fuel k V S []).visited
        (detectCycleDFS adj fuel k V S []).stack := by
  rw [detectCyclesLoop, if_pos h]
  simp only [hc]

theorem dfsInv_empty (adj : Nat → List Nat) : DfsInv adj ∅ ∅ := by
  refine ⟨subset_rfl, ?_, ?_⟩ <;> intro u hu <;> cases hu

theorem detectCyclesLoop_none_inv (adj : Nat → List Nat) (U : Finset Nat)
    (hadjU : ∀ u, ∀ v ∈ adj u, v ∈ U) (fuel : Nat) (hfuel : U.card ≤ fuel) :
    ∀ ks V, (∀ k ∈ ks, k ∈ U) → V ⊆ U → DfsInv adj V ∅ →
      detectCyclesLoop adj fuel ks V ∅ = none →
      ∃ W, V ⊆ W ∧ W ⊆ U ∧ DfsInv adj W ∅ ∧ ∀ k ∈ ks, k ∈ W := by
  intro ks
  induction ks with
  | nil =>
    intro V _ hVU hInv _
    exact ⟨V, subset_rfl, hVU, hInv, by simp⟩
  | cons k ks ihks =>
    intro V hks hVU hInv hnone
    by_cases hkV : k ∈ V
    · rw [detectCyclesLoop_cons_visited hkV] at hnone
      obtain ⟨W, hVW, hWU, hInvW, hksW⟩ := ihks V
        (fun m hm => hks m (List.mem_cons_of_mem k hm)) hVU hInv hnone
      exact ⟨W, hVW, hWU, hInvW, fun m hm => by
        rcases List.mem_cons.1 hm with rfl | hm2
        · exact hVW hkV
        · exact hksW m hm2⟩
    · have hkU : k ∈ U := hks k (List.mem_cons_self k ks)
      have hok := (dfs_ok_spec adj U hadjU fuel).1 k V ∅ [] hkU hkV hVU (by omega)
      cases hc : (detectCycleDFS adj fuel k V ∅ []).cycle with
      | some c =>
        rw [detectCyclesLoop_cons_new_cycle hkV hc] at hnone
        cases hnone
      | none =>
        rw [detectCyclesLoop_cons_new_none hkV hc] at hnone
        have hB := (dfs_black_spec adj fuel).1 k V ∅ [] hInv hkV hc hok
        obtain ⟨hst, hInv2, hmono, hkvis, _⟩ := hB
        rw [hst] at hnone
        have hvisU := ((dfs_visited_spec adj U hadjU fuel).1 k V ∅ [] hkU hVU).2
        obtain ⟨W, hVW, hWU, hInvW, hksW⟩ := ihks
          (detectCycleDFS adj fuel k V ∅ []).visited
          (fun m hm => hks m (List.mem_cons_of_mem k hm)) hvisU hInv2 hnone
        refine ⟨W, subset_trans hmono hVW, hWU, hInvW, ?_⟩
        intro m hm
        rcases List.mem_cons.1 hm with rfl | hm2
        · exact hVW hkvis
        · exact hksW m hm2

/-- Completeness of the cycle DFS: a cyclic graph always makes the
`detectCycles` DFS loop report a cycle. -/
theorem detectCyclesLoop_isSome_of_hasCycle {todos : List Todo} (h : HasCycle todos) :
    ∃ c, detectCyclesLoop (buildAdjacencyList todos) (dfsFuel todos) (keysOf todos) ∅ ∅
      = some c := by
  cases hl : detectCyclesLoop (buildAdjacencyList todos) (dfsFuel todos) (keysOf todos) ∅ ∅ with
  | some c => exact ⟨c, rfl⟩
  | none =>
    exfalso
    obtain ⟨W, _, _, hInvW, hksW⟩ := detectCyclesLoop_none_inv
      (buildAdjacencyList todos) (univOf todos) (adj_subset_univ todos) (dfsFuel todos)
      (Nat.le_succ _) (keysOf todos) ∅ (keys_subset_univ todos) (Finset.empty_subset _)
      (dfsInv_empty _) hl
    obtain ⟨n, hn⟩ := h
    have hnid : n ∈ todos.map Todo.id := by
      rcases Relation.TransGen.head'_iff.1 hn with ⟨v, hv, _⟩
      exact mem_ids_of_dependsOn hv
    have hnW : n ∈ W := hksW n (mem_keysOf.2 hnid)
    exact hInvW.2.2 n hnW (Finset.not_mem_empty n) (dependsOn_eq_rel todos ▸ hn)

/-! ## DFS soundness: the reported cycle is a closed edge walk -/

theorem getLast?_drop_eq {α : Type} (l : List α) (i : Nat) (h : i < l.length) :
    (l.drop i).getLast? = l.getLast? := by
  have hne : l.drop i ≠ [] := by
    rw [Ne, List.drop_eq_nil_iff]
    omega
  conv_rhs => rw [← List.take_append_drop i l]
  rw [List.getLast?_append_of_ne_nil _ hne]

/-- Shape of the cycle slice the DFS builds when it meets a stacked node:
`path.slice(path.indexOf(n)).concat([n])` is a nonempty closed edge
chain. -/
theorem cycle_shape {adj : Nat → List Nat} {p : List Nat} {n x : Nat}
    (hn : n ∈ p) (hchain : List.Chain' (Rel adj) p) (hlast : p.getLast? = some x)
    (hedge : n ∈ adj x) :
    (p.drop (p.indexOf n) ++ [n]) ≠ [] ∧ 2 ≤ (p.drop (p.indexOf n) ++ [n]).length ∧
      List.Chain' (Rel adj) (p.drop (p.indexOf n) ++ [n]) ∧
      (p.drop (p.indexOf n) ++ [n]).head? = (p.drop (p.indexOf n) ++ [n]).getLast? := by
  have hi : p.indexOf n < p.length := List.indexOf_lt_length.2 hn
  have hdne : p.drop (p.indexOf n) ≠ [] := by
    rw [Ne, List.drop_eq_nil_iff]
    omega
  have hhead : (p.drop (p.indexOf n) ++ [n]).head? = some n := by
    rw [List.head?_append_of_ne_nil _ hdne, List.head?_drop, List.getElem?_indexOf hn]
  have hlast2 : (p.drop (p.indexOf n) ++ [n]).getLast? = some n := List.getLast?_concat _
  refine ⟨by simp, ?_, ?_, by rw [hhead, hlast2]⟩
  · rw [List.length_append, List.length_drop]
    simp only [List.length_singleton]
    omega
  · refine List.chain'_append.2 ⟨hchain.drop _, List.chain'_singleton n, ?_⟩
    intro a ha b hb
    rw [getLast?_drop_eq p _ hi, hlast] at ha
    simp only [List.head?_cons, Option.mem_def, Option.some.injEq] at ha hb
    subst ha
    subst hb
    exact hedge

theorem dfs_sound_spec (adj : Nat → List Nat) : ∀ fuel : Nat,
    (∀ node V S p c, DfsInv adj V S → node ∉ V → (∀ y, y ∈ S ↔ y ∈ p) →
      List.Chain' (Rel adj) (p ++ [node]) →
      (detectCycleDFS adj fuel node V S p).cycle = some c →
      c ≠ [] ∧ 2 ≤ c.length ∧ List.Chain' (Rel adj) c ∧ c.head? = c.getLast?) ∧
    (∀ ns V S p c x, DfsInv adj V S → (∀ y, y ∈ S ↔ y ∈ p) →
      List.Chain' (Rel adj) p → p.getLast? = some x → (∀ n ∈ ns, n ∈ adj x) →
      (dfsNeighbors adj fuel ns V S p).cycle = some c →
      c ≠ [] ∧ 2 ≤ c.length ∧ List.Chain' (Rel adj) c ∧ c.head? = c.getLast?) := by
  intro fuel
  induction fuel using Nat.strong_induction_on with
  | _ fuel ih =>
    have hdfs : ∀ node V S p c, DfsInv adj V S → node ∉ V → (∀ y, y ∈ S ↔ y ∈ p) →
        List.Chain' (Rel adj) (p ++ [node]) →
        (detectCycleDFS adj fuel node V S p).cycle = some c →
        c ≠ [] ∧ 2 ≤ c.length ∧ List.Chain' (Rel adj) c ∧ c.head? = c.getLast? := by
      intro node V S p c hInv hnV hstack hchain hcyc
      cases fuel with
      | zero => rw [detectCycleDFS_zero] at hcyc; cases hcyc
      | succ f =>
        cases hc : (dfsNeighbors adj f (adj node) (insert node V) (insert node S)
            (p ++ [node])).cycle with
        | none => rw [detectCycleDFS_succ_of_none hc] at hcyc; cases hcyc
        | some c2 =>
          rw [detectCycleDFS_succ_of_cycle hc, hc] at hcyc
          cases hcyc
          refine (ih f (Nat.lt_succ_self f)).2 (adj node) (insert node V)
            (insert node S) (p ++ [node]) c node (dfsInv_insert hInv hnV) ?_ hchain
            (List.getLast?_concat p) (fun n hn => hn) hc
          intro y
          simp only [Finset.mem_insert, List.mem_append, List.mem_singleton, hstack y]
          tauto
    refine ⟨hdfs, ?_⟩
    intro ns
    induction ns with
    | nil =>
      intro V S p c x _ _ _ _ _ hcyc
      rw [dfsNeighbors_nil] at hcyc
      cases hcyc
    | cons n ns ihns =>
      intro V S p c x hInv hstack hchain hlast hns hcyc
      by_cases hnV : n ∈ V
      · by_cases hnS : n ∈ S
        · rw [dfsNeighbors_cons_stacked hnV hnS] at hcyc
          simp only [Option.some.injEq] at hcyc
          subst hcyc
          have hn : n ∈ p := (hstack n).1 hnS
          exact cycle_shape hn hchain hlast (hns n (List.mem_cons_self n ns))
        · rw [dfsNeighbors_cons_black hnV hnS] at hcyc
          exact ihns V S p c x hInv hstack hchain hlast
            (fun m hm => hns m (List.mem_cons_of_mem n hm)) hcyc
      · cases hc : (detectCycleDFS adj fuel n V S p).cycle with
        | some c2 =>
          rw [dfsNeighbors_cons_new_cycle hnV hc, hc] at hcyc
          cases hcyc
          have hchain2 : List.Chain' (Rel adj) (p ++ [n]) := by
            refine List.chain'_append.2 ⟨hchain, List.chain'_singleton n, ?_⟩
            intro a ha b hb
            rw [hlast] at ha
            simp only [List.head?_cons, Option.mem_def, Option.some.injEq] at ha hb
            subst ha
            subst hb
            exact hns n (List.mem_cons_self n ns)
          exact hdfs n V S p c hInv hnV hstack hchain2 hc
        | none =>
          cases hokd : (detectCycleDFS adj fuel n V S p).ok with
          | false =>
            rw [dfsNeighbors_cons_new_bad hnV hc hokd, hc] at hcyc
            cases hcyc
          | true =>
            rw [dfsNeighbors_cons_new_ok hnV hc hokd] at hcyc
            have hB := (dfs_black_spec adj fuel).1 n V S p hInv hnV hc hokd
            rw [hB.1] at hcyc
            exact ihns (detectCycleDFS adj fuel n V S p).visited S p c x hB.2.1
              hstack hchain hlast (fun m hm => hns m (List.mem_cons_of_mem n hm)) hcyc

theorem detectCyclesLoop_some_spec (adj : Nat → List Nat) (U : Finset Nat)
    (hadjU : ∀ u, ∀ v ∈ adj u, v ∈ U) (fuel : Nat) (hfuel : U.card ≤ fuel) :
    ∀ ks V, (∀ k ∈ ks, k ∈ U) → V ⊆ U → DfsInv adj V ∅ →
      ∀ c, detectCyclesLoop adj fuel ks V ∅ = some c →
      c ≠ [] ∧ 2 ≤ c.length ∧ List.Chain' (Rel adj) c ∧ c.head? = c.getLast? := by
  intro ks
  induction ks with
  | nil =>
    intro V _ _ _ c hcyc
    rw [detectCyclesLoop_nil] at hcyc
    cases hcyc
  | cons k ks ihks =>
    intro V hks hVU hInv c hcyc
    by_cases hkV : k ∈ V
    · rw [detectCyclesLoop_cons_visited hkV] at hcyc
      exact ihks V (fun m hm => hks m (List.mem_cons_of_mem k hm)) hVU hInv c hcyc
    · have hkU : k ∈ U := hks k (List.mem_cons_self k ks)
      have hok := (dfs_ok_spec adj U hadjU fuel).1 k V ∅ [] hkU hkV hVU (by omega)
      cases hc : (detectCycleDFS adj fuel k V ∅ []).cycle with
      | some c2 =>
        rw [detectCyclesLoop_cons_new_cycle hkV hc] at hcyc
        simp only [Option.some.injEq] at hcyc
        subst hcyc
        exact (dfs_sound_spec adj fuel).1 k V ∅ [] c2 hInv hkV (by simp)
          (by simp [List.chain'_singleton]) hc
      | none =>
        rw [detectCyclesLoop_cons_new_none hkV hc] at hcyc
        have hB := (dfs_black_spec adj fuel).1 k V ∅ [] hInv hkV hc hok
        rw [hB.1] at hcyc
        have hvisU := ((dfs_visited_spec adj U hadjU fuel).1 k V ∅ [] hkU hVU).2
        exact ihks (detectCycleDFS adj fuel k V ∅ []).visited
          (fun m hm => hks m (List.mem_cons_of_mem k hm)) hvisU hB.2.1 c hcyc

/-- A nonempty closed edge chain of length at least two yields a graph
cycle. -/
theorem hasCycle_of_closed_chain {todos : List Todo} {c : List Nat}
    (hlen : 2 ≤ c.length) (hchain : List.Chain' (DependsOn todos) c)
    (hcl : c.head? = c.getLast?) : HasCycle todos := by
  cases c with
  | nil => simp at hlen
  | cons a rest =>
    cases rest with
    | nil => simp at hlen
    | cons b rest2 =>
      refine ⟨a, ?_⟩
      have hch : List.Chain (DependsOn todos) a (b :: rest2) := hchain
      have hlast : (b :: rest2).getLast? = some a := by
        have : (a :: b :: rest2).getLast? = (b :: rest2).getLast? := by
          rw [show a :: b :: rest2 = [a] ++ (b :: rest2) from rfl]
          exact List.getLast?_append_of_ne_nil [a] (by simp)
        rw [← this, ← hcl]
        rfl
      exact chain_transGen (b :: rest2) a a hch hlast

/-! ## Wiring: detectCycles and calculateCriticalPath case lemmas -/

theorem detectCycles_eq_invalid {todos : List Todo} {c : List Nat}
    (hc : detectCyclesLoop (buildAdjacencyList todos) (dfsFuel todos) (keysOf todos) ∅ ∅
      = some c) :
    detectCycles todos =
      { isValid := false, circularDependency := some ⟨c, cycleMessage c⟩ } := by
  rw [detectCycles, hc]

theorem detectCycles_eq_valid {todos : List Todo}
    (hc : detectCyclesLoop (buildAdjacencyList todos) (dfsFuel todos) (keysOf todos) ∅ ∅
      = none) :
    detectCycles todos = { isValid := true } := by
  rw [detectCycles, hc]

theorem calculateCriticalPath_empty :
    calculateCriticalPath [] =
      { isValid := true, criticalPath := some [], scheduleData := some (fun _ => entry0) } :=
  rfl

theorem calculateCriticalPath_of_cycle {todos : List Todo} {c : List Nat}
    (hne : todos ≠ [])
    (hc : detectCyclesLoop (buildAdjacencyList todos) (dfsFuel todos) (keysOf todos) ∅ ∅
      = some c) :
    calculateCriticalPath todos =
      { isValid := false, circularDependency := some ⟨c, cycleMessage c⟩ } := by
  rw [calculateCriticalPath, if_neg (by simpa using hne), detectCycles_eq_invalid hc]
  rfl

theorem calculateCriticalPath_of_topo_none {todos : List Todo} (hne : todos ≠ [])
    (hc : detectCyclesLoop (buildAdjacencyList todos) (dfsFuel todos) (keysOf todos) ∅ ∅
      = none)
    (ht : topologicalSort todos = none) :
    calculateCriticalPath todos = { isValid := false } := by
  rw [calculateCriticalPath, if_neg (by simpa using hne), detectCycles_eq_valid hc]
  simp only [ht]
  rfl

theorem calculateCriticalPath_of_topo_some {todos : List Todo} {order : List Nat}
    (hne : todos ≠ [])
    (hc : detectCyclesLoop (buildAdjacencyList todos) (dfsFuel todos) (keysOf todos) ∅ ∅
      = none)
    (ht : topologicalSort todos = some order) :
    calculateCriticalPath todos =
      { isValid := true
        criticalPath := some (identifyCriticalPath todos
          (calculateBackwardPass todos order (calculateForwardPass todos order)))
        scheduleData := some (calculateBackwardPass todos order
          (calculateForwardPass todos order)) } := by
  rw [calculateCriticalPath, if_neg (by simpa using hne), detectCycles_eq_valid hc]
  simp only [ht]
  rfl

theorem todos_ne_nil_of_hasCycle {todos : List Todo} (h : HasCycle todos) :
    todos ≠ [] := by
  obtain ⟨n, hn⟩ := h
  rcases Relation.TransGen.head'_iff.1 hn with ⟨v, hv, _⟩
  rcases dependsOn_iff.1 hv with ⟨t, ht, _, _⟩
  intro hnil
  rw [hnil] at ht
  cases ht

/-- The DFS loop verdict on an acyclic graph is always `none`. -/
theorem detectCyclesLoop_none_of_acyclic {todos : List Todo} (h : ¬ HasCycle todos) :
    detectCyclesLoop (buildAdjacencyList todos) (dfsFuel todos) (keysOf todos) ∅ ∅
      = none := by
  cases hl : detectCyclesLoop (buildAdjacencyList todos) (dfsFuel todos) (keysOf todos) ∅ ∅ with
  | none => rfl
  | some c =>
    exfalso
    have hs := detectCyclesLoop_some_spec (buildAdjacencyList todos) (univOf todos)
      (adj_subset_univ todos) (dfsFuel todos) (Nat.le_succ _) (keysOf todos) ∅
      (keys_subset_univ todos) (Finset.empty_subset _) (dfsInv_empty _) c hl
    exact h (hasCycle_of_closed_chain hs.2.1 hs.2.2.1 hs.2.2.2)

/-- C1: a cyclic input makes `calculateCriticalPath` return an invalid
result whose `circularDependency.cycle` is a nonempty list of task ids in
which consecutive elements are joined by depends-on edges and whose last
element equals its first. -/
theorem cyclic_input_reports_closed_cycle (todos : List Todo) (h : HasCycle todos) :
    (calculateCriticalPath todos).isValid = false ∧
      ∃ cd, (calculateCriticalPath todos).circularDependency = some cd ∧
        cd.cycle ≠ [] ∧ List.Chain' (DependsOn todos) cd.cycle ∧
        cd.cycle.head? = cd.cycle.getLast? := by
  obtain ⟨c, hc⟩ := detectCyclesLoop_isSome_of_hasCycle h
  have hs := detectCyclesLoop_some_spec (buildAdjacencyList todos) (univOf todos)
    (adj_subset_univ todos) (dfsFuel todos) (Nat.le_succ _) (keysOf todos) ∅
    (keys_subset_univ todos) (Finset.empty_subset _) (dfsInv_empty _) c hc
  rw [calculateCriticalPath_of_cycle (todos_ne_nil_of_hasCycle h) hc]
  exact ⟨rfl, ⟨c, cycleMessage c⟩, rfl, hs.1, hs.2.2.1, hs.2.2.2⟩

/-- Witness for C1 at the two-task cycle `1 ⇄ 2`. -/
theorem cyclic_input_reports_closed_cycle_witness :
    HasCycle [⟨1, 1, [2]⟩, ⟨2, 1, [1]⟩] ∧
      ((calculateCriticalPath [⟨1, 1, [2]⟩, ⟨2, 1, [1]⟩]).isValid = false ∧
        ∃ cd, (calculateCriticalPath [⟨1, 1, [2]⟩, ⟨2, 1, [1]⟩]).circularDependency
            = some cd ∧
          cd.cycle ≠ [] ∧ List.Chain' (DependsOn [⟨1, 1, [2]⟩, ⟨2, 1, [1]⟩]) cd.cycle ∧
          cd.cycle.head? = cd.cycle.getLast?) := by
  have hcyc : HasCycle [⟨1, 1, [2]⟩, ⟨2, 1, [1]⟩] :=
    ⟨1, Relation.TransGen.head (b := 2) (by decide) (Relation.TransGen.single (by decide))⟩
  exact ⟨hcyc, cyclic_input_reports_closed_cycle _ hcyc⟩

/-! ## Easy claims: C7, C8, C9 and the C2/C4 counterexamples -/

theorem not_transGen_of_no_edges {r : Nat → Nat → Prop} (h : ∀ u v, ¬ r u v)
    (a b : Nat) : ¬ Relation.TransGen r a b := by
  intro hab
  rcases Relation.TransGen.head'_iff.1 hab with ⟨c, hc, _⟩
  exact h a c hc

/-- C8: `validateDependency(todos, X, X)` is always invalid with the
one-element cycle `[X]`, whatever `todos` is. -/
theorem validateDependency_self (todos : List Todo) (x : Nat) :
    validateDependency todos x x = { isValid := false, cycle := some [x] } := by
  rw [validateDependency, if_pos rfl]

/-- The three-task all-independent scenario of C7. -/
def c7Input : List Todo := [⟨1, 2, []⟩, ⟨2, 5, []⟩, ⟨3, 3, []⟩]

/-- C7: with independent tasks of 2, 5 and 3 days, only the 5-day task is
critical, and each other task gets slack `(5 − ownDuration)` days with
latest times shifted by that slack from its earliest times. -/
theorem allIndependent_2_5_3_critical_path :
    (calculateCriticalPath c7Input).criticalPath = some [2] ∧
      ∃ sd, (calculateCriticalPath c7Input).scheduleData = some sd ∧
        (sd 2).isOnCriticalPath = true ∧ (sd 2).slack = 0 ∧
        (sd 1).isOnCriticalPath = false ∧ (sd 3).isOnCriticalPath = false ∧
        (sd 1).slack = (5 - 2) * (24 * 60 * 60 * 1000) ∧
        (sd 3).slack = (5 - 3) * (24 * 60 * 60 * 1000) ∧
        (sd 1).latestStart = (sd 1).earliestStart + (sd 1).slack ∧
        (sd 1).latestFinish = (sd 1).earliestFinish + (sd 1).slack ∧
        (sd 3).latestStart = (sd 3).earliestStart + (sd 3).slack ∧
        (sd 3).latestFinish = (sd 3).earliestFinish + (sd 3).slack := by
  refine ⟨by decide, _, rfl, ?_, ?_, ?_, ?_, ?_, ?_, ?_, ?_, ?_, ?_⟩ <;> decide

/-- C9 (amended): a valid result always carries a critical-path list,
which is empty for the empty input; an invalid result carries no
critical-path list at all (the field is absent, not an empty list). -/
theorem criticalPath_field_presence (todos : List Todo) :
    ((calculateCriticalPath todos).isValid = true →
      ∃ l, (calculateCriticalPath todos).criticalPath = some l) ∧
    (todos = [] → (calculateCriticalPath todos).criticalPath = some []) ∧
    ((calculateCriticalPath todos).isValid = false →
      (calculateCriticalPath todos).criticalPath = none) := by
  by_cases hne : todos = []
  · subst hne
    rw [calculateCriticalPath_empty]
    exact ⟨fun _ => ⟨[], rfl⟩, fun _ => rfl, fun h => by cases h⟩
  · cases hc : detectCyclesLoop (buildAdjacencyList todos) (dfsFuel todos)
        (keysOf todos) ∅ ∅ with
    | some c =>
      rw [calculateCriticalPath_of_cycle hne hc]
      exact ⟨(fun h => by cases h), fun h => absurd h hne, fun _ => rfl⟩
    | none =>
      cases ht : topologicalSort todos with
      | none =>
        rw [calculateCriticalPath_of_topo_none hne hc ht]
        exact ⟨(fun h => by cases h), fun h => absurd h hne, fun _ => rfl⟩
      | some order =>
        rw [calculateCriticalPath_of_topo_some hne hc ht]
        exact ⟨fun _ => ⟨_, rfl⟩, fun h => absurd h hne, fun h => by cases h⟩

/-- Witness for C9's amended statement at the empty input. -/
theorem criticalPath_field_presence_witness :
    (calculateCriticalPath []).criticalPath = some [] :=
  (criticalPath_field_presence []).2.1 rfl

/-- Counterexample to C9 as stated: on a cyclic input the result contains
no critical-path list at all (`none`), rather than an empty one. -/
theorem criticalPath_absent_on_cycle_counterexample :
    (calculateCriticalPath [⟨1, 1, [1]⟩]).isValid = false ∧
      (calculateCriticalPath [⟨1, 1, [1]⟩]).criticalPath = none := by
  exact ⟨by decide, by decide⟩

/-- Input for the C2 counterexample: two acyclic tasks sharing one id. -/
def dupIdInput : List Todo := [⟨1, 1, []⟩, ⟨1, 1, []⟩]

/-- Counterexample to C2 as stated: an acyclic input (no edges at all,
hence every referenced id trivially present) on which
`calculateCriticalPath` nevertheless returns `isValid = false`, because
the duplicated id makes Kahn's result shorter than the input. -/
theorem acyclic_but_invalid_counterexample :
    ¬ HasCycle dupIdInput ∧
      (∀ t ∈ dupIdInput, ∀ d ∈ t.dependencies, d ∈ dupIdInput.map Todo.id) ∧
      (calculateCriticalPath dupIdInput).isValid = false := by
  refine ⟨?_, by decide, by decide⟩
  rintro ⟨n, hn⟩
  refine not_transGen_of_no_edges (fun u v huv => ?_) n n hn
  rcases dependsOn_iff.1 huv with ⟨t, ht, _, hd⟩
  rcases List.mem_cons.1 ht with rfl | ht2
  · cases hd
  · rcases List.mem_cons.1 ht2 with rfl | ht3
    · cases hd
    · cases ht3

/-- Input for the C4 counterexample: a duplicated dependency entry. -/
def dupDepInput : List Todo := [⟨1, 1, [2, 2]⟩, ⟨2, 1, []⟩]

/-- Counterexample to C4 as stated: all referenced ids are present and the
graph is acyclic (its only edge is `1 → 2`), yet `topologicalSort`
returns `null`, because the duplicated dependency entry makes task 1's
in-degree 2 while processing task 2 decrements it only once. -/
theorem topologicalSort_none_on_acyclic_counterexample :
    (∀ t ∈ dupDepInput, ∀ d ∈ t.dependencies, d ∈ dupDepInput.map Todo.id) ∧
      ¬ HasCycle dupDepInput ∧
      topologicalSort dupDepInput = none := by
  refine ⟨by decide, ?_, by decide⟩
  rintro ⟨n, hn⟩
  have hedge : ∀ u v, DependsOn dupDepInput u v → u = 1 ∧ v = 2 := by
    intro u v huv
    rcases dependsOn_iff.1 huv with ⟨t, ht, rfl, hd⟩
    rcases List.mem_cons.1 ht with rfl | ht2
    · rcases List.mem_cons.1 hd with rfl | hd2
      · exact ⟨rfl, rfl⟩
      · rcases List.mem_cons.1 hd2 with rfl | hd3
        · exact ⟨rfl, rfl⟩
        · cases hd3
    · rcases List.mem_cons.1 ht2 with rfl | ht3
      · cases hd
      · cases ht3
  rcases Relation.TransGen.head'_iff.1 hn with ⟨c, hc, hcn⟩
  obtain ⟨rfl, rfl⟩ := hedge n c hc
  rcases (Relation.ReflTransGen.cases_head hcn) with h | ⟨d, hd, _⟩
  · cases h
  · exact absurd (hedge 2 d hd).1 (by decide)

/-! ## Kahn layer 1: loop equations and in-degree accounting -/

theorem kahnLoop_queue_nil (todos : List Todo) (fuel : Nat) (deg : Nat → Int)
    (result : List Nat) : kahnLoop todos fuel deg [] result = result := by
  cases fuel <;> rfl

theorem kahnLoop_zero (todos : List Todo) (deg : Nat → Int) (c : Nat)
    (rest result : List Nat) : kahnLoop todos 0 deg (c :: rest) result = result := rfl

theorem kahnLoop_succ (todos : List Todo) (f : Nat) (deg : Nat → Int) (c : Nat)
    (rest result : List Nat) :
    kahnLoop todos (f + 1) deg (c :: rest) result =
      kahnLoop todos f (todos.foldl (kahnVisit c) (deg, rest)).1
        (todos.foldl (kahnVisit c) (deg, rest)).2 (result ++ [c]) := rfl

theorem kahnVisit_deg (c : Nat) (s : (Nat → Int) × List Nat) (t : Todo) (k : Nat) :
    (kahnVisit c s t).1 k =
      s.1 k - (if t.id = k ∧ c ∈ t.dependencies then 1 else 0) := by
  rw [kahnVisit]
  by_cases hc : c ∈ t.dependencies
  · rw [if_pos (List.elem_iff.2 hc)]
    by_cases hk : t.id = k
    · subst hk
      show Function.update s.1 t.id (s.1 t.id - 1) t.id = _
      rw [Function.update_same, if_pos ⟨rfl, hc⟩]
    · show Function.update s.1 t.id (s.1 t.id - 1) k = _
      rw [Function.update_noteq (fun h => hk h.symm), if_neg (fun hh => hk hh.1)]
      ring
  · rw [if_neg (by simpa using hc), if_neg (fun hh => hc hh.2)]
    ring

theorem kahnVisit_queue (c : Nat) (s : (Nat → Int) × List Nat) (t : Todo) :
    (kahnVisit c s t).2 = s.2 ∨
      ((kahnVisit c s t).2 = s.2 ++ [t.id] ∧ c ∈ t.dependencies ∧
        s.1 t.id = 1 ∧ (kahnVisit c s t).1 t.id = 0) := by
  by_cases hc : c ∈ t.dependencies
  · by_cases h0 : s.1 t.id - 1 = 0
    · refine Or.inr ⟨?_, hc, by omega, ?_⟩
      · rw [kahnVisit, if_pos (List.elem_iff.2 hc)]
        show (if Function.update s.1 t.id (s.1 t.id - 1) t.id = 0
          then s.2 ++ [t.id] else s.2) = _
        rw [Function.update_same, if_pos h0]
      · rw [kahnVisit_deg, if_pos ⟨rfl, hc⟩]
        omega
    · refine Or.inl ?_
      rw [kahnVisit, if_pos (List.elem_iff.2 hc)]
      show (if Function.update s.1 t.id (s.1 t.id - 1) t.id = 0
        then s.2 ++ [t.id] else s.2) = _
      rw [Function.update_same, if_neg h0]
  · refine Or.inl ?_
    rw [kahnVisit, if_neg (by simpa using hc)]

theorem kahnFold_deg (c : Nat) :
    ∀ (l : List Todo) (s : (Nat → Int) × List Nat) (k : Nat),
      ((l.foldl (kahnVisit c) s).1) k =
        s.1 k - ((l.filter (fun t => t.id == k && t.dependencies.contains c)).length : Int) := by
  intro l
  induction l with
  | nil => intro s k; simp
  | cons t l ih =>
    intro s k
    rw [List.foldl_cons, ih]
    rw [kahnVisit_deg]
    by_cases ht : t.id = k ∧ c ∈ t.dependencies
    · rw [if_pos ht, List.filter_cons_of_pos (by simp [ht.1, ht.2])]
      simp only [List.length_cons]
      push_cast
      ring
    · rw [if_neg ht, List.filter_cons_of_neg ?_]
      · ring
      · simp only [Bool.and_eq_true, beq_iff_eq, List.elem_iff]
        exact fun hcon => ht ⟨hcon.1, by simpa using hcon.2⟩

/-- In-degree bookkeeping: value of the `inDegree` map after the pops
listed in `R`, broken down per todo carrying the id `k`. -/
def degSpec (todos : List Todo) (R : List Nat) (k : Nat) : Int :=
  ((todos.filter (fun t => t.id == k)).map
    (fun t => (t.dependencies.length : Int) -
      ((R.filter (fun d => t.dependencies.contains d)).length : Int))).sum

theorem degSpec_nil (todos : List Todo) (k : Nat) :
    degSpec todos [] k = initInDegree todos k := by
  simp [degSpec, initInDegree]

theorem filter_length_concat_int {α : Type} (R : List α) (c : α) (p : α → Bool) :
    (((R ++ [c]).filter p).length : Int) =
      ((R.filter p).length : Int) + (if p c then 1 else 0) := by
  rw [List.filter_append]
  by_cases hc : p c
  · simp [hc]
  · simp [hc]

theorem degSpec_concat (todos : List Todo) (R : List Nat) (c k : Nat) :
    degSpec todos (R ++ [c]) k =
      degSpec todos R k -
        ((todos.filter (fun t => t.id == k && t.dependencies.contains c)).length : Int) := by
  have hsplit : (todos.filter (fun t => t.id == k)).filter
      (fun t => t.dependencies.contains c) =
      todos.filter (fun t => t.id == k && t.dependencies.contains c) := by
    rw [List.filter_filter]
    exact List.filter_congr (fun x _ => Bool.and_comm _ _)
  rw [degSpec, degSpec, ← hsplit]
  generalize todos.filter (fun t => t.id == k) = F
  induction F with
  | nil => simp
  | cons t F ihF =>
    rw [List.map_cons, List.map_cons, List.sum_cons, List.sum_cons, ihF,
      filter_length_concat_int]
    by_cases hc : t.dependencies.contains c
    · rw [if_pos hc]
      simp only [List.filter_cons, hc, if_true, List.length_cons]
      push_cast
      ring
    · rw [if_neg hc]
      simp only [List.filter_cons, hc, Bool.false_eq_true, if_false]
      push_cast
      ring

theorem sum_zero_of_nonneg :
    ∀ (L : List Int), (∀ x ∈ L, 0 ≤ x) → L.sum = 0 → ∀ x ∈ L, x = 0 := by
  intro L
  induction L with
  | nil => intro _ _ x hx; cases hx
  | cons y L ihL =>
    intro hpos hsum x hx
    have hyp : 0 ≤ y := hpos y (List.mem_cons_self y L)
    have hLp : 0 ≤ L.sum := List.sum_nonneg (fun z hz => hpos z (List.mem_cons_of_mem y hz))
    rw [List.sum_cons] at hsum
    have hy0 : y = 0 := by omega
    have hL0 : L.sum = 0 := by omega
    rcases List.mem_cons.1 hx with rfl | hx2
    · exact hy0
    · exact ihL (fun z hz => hpos z (List.mem_cons_of_mem y hz)) hL0 x hx2

theorem mem_of_mem_depFilter {R deps : List Nat} {x : Nat}
    (hx : x ∈ R.filter (fun d => deps.contains d)) : x ∈ deps := by
  have := (List.mem_filter.1 hx).2
  exact List.elem_iff.1 this

theorem depFilter_subperm {R deps : List Nat} (hR : R.Nodup) :
    List.Subperm (R.filter (fun d => deps.contains d)) deps :=
  (hR.filter _).subperm (fun x hx => mem_of_mem_depFilter hx)

theorem degSpec_term_nonneg {R deps : List Nat} (hR : R.Nodup) :
    0 ≤ (deps.length : Int) - ((R.filter (fun d => deps.contains d)).length : Int) := by
  have := (@depFilter_subperm _ deps hR).length_le
  omega

theorem degSpec_nonneg (todos : List Todo) {R : List Nat} (hR : R.Nodup) (k : Nat) :
    0 ≤ degSpec todos R k := by
  refine List.sum_nonneg ?_
  intro x hx
  rcases List.mem_map.1 hx with ⟨t, _, rfl⟩
  exact degSpec_term_nonneg hR

theorem degSpec_eq_zero_imp (todos : List Todo) {R : List Nat} (hR : R.Nodup)
    {k : Nat} (h0 : degSpec todos R k = 0) :
    ∀ t ∈ todos, t.id = k → t.dependencies.Nodup ∧ ∀ d ∈ t.dependencies, d ∈ R := by
  intro t ht hid
  have htF : t ∈ todos.filter (fun t => t.id == k) :=
    List.mem_filter.2 ⟨ht, by simp [hid]⟩
  have hterm := sum_zero_of_nonneg _
    (fun x hx => by
      rcases List.mem_map.1 hx with ⟨u, _, rfl⟩
      exact degSpec_term_nonneg hR)
    h0 _ (List.mem_map.2 ⟨t, htF, rfl⟩)
  have hlen : (R.filter (fun d => t.dependencies.contains d)).length
      = t.dependencies.length := by omega
  have hperm : List.Perm (R.filter (fun d => t.dependencies.contains d)) t.dependencies :=
    (depFilter_subperm hR).perm_of_length_le (by omega)
  constructor
  · exact hperm.nodup_iff.1 (hR.filter _)
  · intro d hd
    have : d ∈ R.filter (fun d => t.dependencies.contains d) := hperm.mem_iff.2 hd
    exact (List.mem_filter.1 this).1

theorem degSpec_eq_zero_of (todos : List Todo) {R : List Nat} (hR : R.Nodup) {k : Nat}
    (h : ∀ t ∈ todos, t.id = k → t.dependencies.Nodup ∧ ∀ d ∈ t.dependencies, d ∈ R) :
    degSpec todos R k = 0 := by
  refine List.sum_eq_zero ?_
  intro x hx
  rcases List.mem_map.1 hx with ⟨t, htF, rfl⟩
  obtain ⟨ht, hid⟩ := List.mem_filter.1 htF
  obtain ⟨hnd, hsub⟩ := h t ht (by simpa using hid)
  have h1 : List.Subperm t.dependencies (R.filter (fun d => t.dependencies.contains d)) := by
    refine hnd.subperm ?_
    intro d hd
    exact List.mem_filter.2 ⟨hsub d hd, List.elem_iff.2 hd⟩
  have h2 := (@depFilter_subperm _ t.dependencies hR).length_le
  have h3 := h1.length_le
  omega

/-! ## Kahn layer 2: loop invariants -/

/-- Queue/result pool invariant of the Kahn loop: the pool (`result`
followed by the pending queue) has no duplicates, contains only todo ids,
its members have non-positive in-degree, and every id whose in-degree is
zero is in the pool. -/
def KQInv (todos : List Todo) (deg : Nat → Int) (pool : List Nat) : Prop :=
  pool.Nodup ∧ (∀ k ∈ pool, k ∈ todos.map Todo.id) ∧ (∀ k ∈ pool, deg k ≤ 0) ∧
    ∀ k ∈ todos.map Todo.id, deg k = 0 → k ∈ pool

/-- Every id in the result appears only after all dependencies of every
todo carrying it, and those dependency lists are duplicate-free. -/
def OrderSpec (todos : List Todo) (res : List Nat) : Prop :=
  ∀ l1 k l2, res = l1 ++ k :: l2 → ∀ t ∈ todos, t.id = k →
    t.dependencies.Nodup ∧ ∀ d ∈ t.dependencies, d ∈ l1

/-- Full invariant of the Kahn loop. -/
def KInv (todos : List Todo) (deg : Nat → Int) (queue result : List Nat) : Prop :=
  KQInv todos deg (result ++ queue) ∧ (∀ k, deg k = degSpec todos result k) ∧
    OrderSpec todos result

theorem split_concat {α : Type} {l1 l2 res : List α} {k c : α}
    (h : res ++ [c] = l1 ++ k :: l2) :
    (l2 = [] ∧ l1 = res ∧ k = c) ∨ ∃ l2p, l2 = l2p ++ [c] ∧ res = l1 ++ k :: l2p := by
  rcases List.eq_nil_or_concat l2 with rfl | ⟨l2p, d, rfl⟩
  · have hlen : res.length = l1.length := by
      have := congrArg List.length h
      simp at this
      omega
    obtain ⟨h1, h2⟩ := List.append_inj h hlen
    exact Or.inl ⟨rfl, h1.symm, by simpa using h2.symm⟩
  · rw [List.concat_eq_append, ← List.cons_append, ← List.append_assoc] at h
    have hlen : res.length = (l1 ++ k :: l2p).length := by
      have := congrArg List.length h
      simp at this
      simp
      omega
    obtain ⟨h1, h2⟩ := List.append_inj h hlen
    have hd : c = d := by simpa using h2
    exact Or.inr ⟨l2p, by rw [List.concat_eq_append, hd], h1⟩

theorem kahnVisit_KQInv {todos : List Todo} {c : Nat} {result : List Nat}
    {s : (Nat → Int) × List Nat} {t : Todo} (ht : t ∈ todos)
    (h : KQInv todos s.1 (result ++ s.2)) :
    KQInv todos (kahnVisit c s t).1 (result ++ (kahnVisit c s t).2) := by
  obtain ⟨hnd, hids, hle, hzero⟩ := h
  have hdegle : ∀ k, (kahnVisit c s t).1 k ≤ s.1 k := by
    intro k
    rw [kahnVisit_deg]
    split <;> omega
  rcases kahnVisit_queue c s t with hq | ⟨hq, hcdep, hone, hzero2⟩
  · rw [hq]
    refine ⟨hnd, hids, fun k hk => le_trans (hdegle k) (hle k hk), ?_⟩
    intro k hkid hk0
    by_cases hkt : k = t.id
    · subst hkt
      have hdg := kahnVisit_deg c s t t.id
      rw [hk0] at hdg
      by_cases hco : c ∈ t.dependencies
      · exfalso
        have hs1 : s.1 t.id = 1 := by
          rw [if_pos ⟨rfl, hco⟩] at hdg
          omega
        have hpush : (kahnVisit c s t).2 = s.2 ++ [t.id] := by
          rw [kahnVisit, if_pos (List.elem_iff.2 hco)]
          show (if Function.update s.1 t.id (s.1 t.id - 1) t.id = 0
            then s.2 ++ [t.id] else s.2) = _
          rw [Function.update_same, if_pos (by omega)]
        rw [hq] at hpush
        simpa using congrArg List.length hpush
      · have hs0 : s.1 t.id = 0 := by
          rw [if_neg (fun hh => hco hh.2)] at hdg
          omega
        exact hzero t.id hkid hs0
    · have : (kahnVisit c s t).1 k = s.1 k := by
        rw [kahnVisit_deg, if_neg (fun hh => hkt (hh.1.symm))]
        ring
      rw [this] at hk0
      exact hzero k hkid hk0
  · rw [hq, ← List.append_assoc]
    have htid : t.id ∉ result ++ s.2 := by
      intro hmem
      have := hle t.id hmem
      omega
    refine ⟨?_, ?_, ?_, ?_⟩
    · rw [List.nodup_append]
      exact ⟨hnd, List.nodup_singleton _, by simp [htid]⟩
    · intro k hk
      rcases List.mem_append.1 hk with hk2 | hk2
      · exact hids k hk2
      · simp at hk2
        subst hk2
        exact List.mem_map.2 ⟨t, ht, rfl⟩
    · intro k hk
      rcases List.mem_append.1 hk with hk2 | hk2
      · exact le_trans (hdegle k) (hle k hk2)
      · simp at hk2
        subst hk2
        omega
    · intro k hkid hk0
      by_cases hkt : k = t.id
      · subst hkt
        simp
      · have : (kahnVisit c s t).1 k = s.1 k := by
          rw [kahnVisit_deg, if_neg (fun hh => hkt (hh.1.symm))]
          ring
        rw [this] at hk0
        exact List.mem_append_left _ (hzero k hkid hk0)

theorem kahnFold_KQInv {todos : List Todo} {c : Nat} {result : List Nat} :
    ∀ (l : List Todo), (∀ t ∈ l, t ∈ todos) → ∀ (s : (Nat → Int) × List Nat),
      KQInv todos s.1 (result ++ s.2) →
      KQInv todos (l.foldl (kahnVisit c) s).1 (result ++ (l.foldl (kahnVisit c) s).2) := by
  intro l
  induction l with
  | nil => intro _ s h; exact h
  | cons t l ihl =>
    intro hl s h
    rw [List.foldl_cons]
    exact ihl (fun u hu => hl u (List.mem_cons_of_mem t hu)) (kahnVisit c s t)
      (kahnVisit_KQInv (hl t (List.mem_cons_self t l)) h)

theorem kahnFold_queue_ext (c : Nat) :
    ∀ (l : List Todo) (s : (Nat → Int) × List Nat),
      ∃ ext, (l.foldl (kahnVisit c) s).2 = s.2 ++ ext := by
  intro l
  induction l with
  | nil => intro s; exact ⟨[], by simp⟩
  | cons t l ihl =>
    intro s
    rw [List.foldl_cons]
    obtain ⟨ext, hext⟩ := ihl (kahnVisit c s t)
    rcases kahnVisit_queue c s t with hq | ⟨hq, _, _, _⟩
    · exact ⟨ext, by rw [hext, hq]⟩
    · exact ⟨[t.id] ++ ext, by rw [hext, hq, List.append_assoc]⟩

theorem kahnStep_KInv {todos : List Todo} {deg : Nat → Int} {c : Nat}
    {rest result : List Nat} (h : KInv todos deg (c :: rest) result) :
    KInv todos (todos.foldl (kahnVisit c) (deg, rest)).1
      (todos.foldl (kahnVisit c) (deg, rest)).2 (result ++ [c]) := by
  obtain ⟨⟨hnd, hids, hle, hzero⟩, hdeg, hord⟩ := h
  have hresnd : result.Nodup := (List.nodup_append.1 hnd).1
  have hczero : degSpec todos result c = 0 := by
    have h1 : deg c ≤ 0 := hle c (by simp)
    have h2 : 0 ≤ degSpec todos result c := degSpec_nonneg todos hresnd c
    have h3 := hdeg c
    omega
  have hcdeps := degSpec_eq_zero_imp todos hresnd hczero
  have hpool : (result ++ [c]) ++ rest = result ++ c :: rest := by
    rw [List.append_assoc]
    rfl
  refine ⟨?_, ?_, ?_⟩
  · refine kahnFold_KQInv todos (fun t ht => ht) (deg, rest) ?_
    show KQInv todos deg ((result ++ [c]) ++ rest)
    rw [hpool]
    exact ⟨hnd, hids, hle, hzero⟩
  · intro k
    show (todos.foldl (kahnVisit c) (deg, rest)).1 k = _
    rw [kahnFold_deg c todos (deg, rest) k]
    show deg k - _ = _
    rw [hdeg k, degSpec_concat]
  · intro l1 k l2 hsplit t ht hid
    rcases split_concat hsplit with ⟨_, rfl, rfl⟩ | ⟨l2p, _, hres⟩
    · exact hcdeps t ht hid
    · exact hord l1 k l2p hres t ht hid

/-- Number of distinct todo ids. -/
def nKeys (todos : List Todo) : Nat := ((todos.map Todo.id).dedup).length

theorem pool_length_le {todos : List Todo} {pool : List Nat} (hnd : pool.Nodup)
    (hids : ∀ k ∈ pool, k ∈ todos.map Todo.id) : pool.length ≤ nKeys todos := by
  have hsub : pool ⊆ (todos.map Todo.id).dedup := by
    intro k hk
    exact List.mem_dedup.2 (hids k hk)
  exact (hnd.subperm hsub).length_le

theorem kahnLoop_spec (todos : List Todo) :
    ∀ (fuel : Nat) (deg : Nat → Int) (queue result : List Nat),
      KInv todos deg queue result →
      nKeys todos + 1 ≤ fuel + result.length →
      ∃ degF, KInv todos degF [] (kahnLoop todos fuel deg queue result) ∧
        ∀ k ∈ result ++ queue, k ∈ kahnLoop todos fuel deg queue result := by
  intro fuel
  induction fuel with
  | zero =>
    intro deg queue result h hfuel
    cases queue with
    | nil =>
      rw [kahnLoop_queue_nil]
      exact ⟨deg, h, fun k hk => by simpa using hk⟩
    | cons c rest =>
      exfalso
      have hlen := pool_length_le h.1.1 h.1.2.1
      rw [List.length_append, List.length_cons] at hlen
      omega
  | succ f ihf =>
    intro deg queue result h hfuel
    cases queue with
    | nil =>
      rw [kahnLoop_queue_nil]
      exact ⟨deg, h, fun k hk => by simpa using hk⟩
    | cons c rest =>
      rw [kahnLoop_succ]
      have hstep := kahnStep_KInv h
      have hfuel2 : nKeys todos + 1 ≤ f + (result ++ [c]).length := by
        rw [List.length_append, List.length_singleton]
        omega
      obtain ⟨degF, hF, hmem⟩ := ihf _ _ _ hstep hfuel2
      refine ⟨degF, hF, ?_⟩
      intro k hk
      obtain ⟨ext, hext⟩ := kahnFold_queue_ext c todos (deg, rest)
      rcases List.mem_append.1 hk with hk2 | hk2
      · exact hmem k (List.mem_append_left _ (List.mem_append_left _ hk2))
      · rcases List.mem_cons.1 hk2 with rfl | hk3
        · exact hmem k (List.mem_append_left _ (List.mem_append_right _ (by simp)))
        · refine hmem k (List.mem_append_right _ ?_)
          rw [hext]
          exact List.mem_append_left _ hk3

theorem KInv_init (todos : List Todo) :
    KInv todos (initInDegree todos)
      ((keysOf todos).filter (fun k => initInDegree todos k == 0)) [] := by
  refine ⟨⟨?_, ?_, ?_, ?_⟩, ?_, ?_⟩
  · simpa using (keysOf_nodup todos).filter _
  · intro k hk
    simp only [List.nil_append] at hk
    exact mem_keysOf.1 (List.mem_filter.1 hk).1
  · intro k hk
    simp only [List.nil_append] at hk
    have := (List.mem_filter.1 hk).2
    simp only [beq_iff_eq] at this
    omega
  · intro k hkid hk0
    simp only [List.nil_append]
    exact List.mem_filter.2 ⟨mem_keysOf.2 hkid, by simp [hk0]⟩
  · intro k
    rw [degSpec_nil]
  · intro l1 k l2 hsplit
    exact absurd hsplit (by simp)

/-! ## Kahn layer 3: topologicalSort facts -/

/-- The list the Kahn loop of `topologicalSort` produces. -/
def kahnRun (todos : List Todo) : List Nat :=
  kahnLoop todos (todos.length + 1) (initInDegree todos)
    ((keysOf todos).filter (fun k => initInDegree todos k == 0)) []

theorem topologicalSort_eq (todos : List Todo) :
    topologicalSort todos =
      if (kahnRun todos).length = todos.length then some (kahnRun todos) else none := rfl

theorem nKeys_le_length (todos : List Todo) : nKeys todos ≤ todos.length := by
  have h := (List.dedup_sublist (todos.map Todo.id)).length_le
  simpa [nKeys] using h

theorem kahnRun_spec (todos : List Todo) :
    ∃ degF, KInv todos degF [] (kahnRun todos) := by
  obtain ⟨degF, hF, _⟩ := kahnLoop_spec todos (todos.length + 1) (initInDegree todos)
    ((keysOf todos).filter (fun k => initInDegree todos k == 0)) [] (KInv_init todos)
    (by have := nKeys_le_length todos; simp; omega)
  exact ⟨degF, hF⟩

theorem indexOf_append_lt {l1 rest : List Nat} {v : Nat} (hv : v ∈ l1) :
    (l1 ++ rest).indexOf v < l1.length := by
  induction l1 with
  | nil => cases hv
  | cons a l1 ih =>
    by_cases hav : a = v
    · subst hav
      simp [List.indexOf_cons_self]
    · rcases List.mem_cons.1 hv with rfl | hv2
      · exact absurd rfl hav
      · rw [List.cons_append, List.indexOf_cons_ne _ (by simpa using hav)]
        have := ih hv2
        simp only [List.length_cons]
        omega

theorem indexOf_append_middle {l1 l2 : List Nat} {u : Nat} (hu : u ∉ l1) :
    (l1 ++ u :: l2).indexOf u = l1.length := by
  induction l1 with
  | nil => simp [List.indexOf_cons_self]
  | cons a l1 ih =>
    have hau : a ≠ u := fun h => hu (h ▸ List.mem_cons_self a l1)
    rw [List.cons_append, List.indexOf_cons_ne _ (by simpa using hau),
      ih (fun h => hu (List.mem_cons_of_mem a h))]
    simp

/-- Facts available whenever `topologicalSort` succeeds: the order is a
duplicate-free permutation of the (necessarily distinct) todo ids of the
same length as the input, every todo's dependency list is duplicate-free,
all referenced ids are present, and dependencies come strictly before
dependents. -/
theorem topologicalSort_some_spec {todos : List Todo} {order : List Nat}
    (h : topologicalSort todos = some order) :
    order.Nodup ∧ order.length = todos.length ∧
      (∀ k, k ∈ order ↔ k ∈ todos.map Todo.id) ∧ (todos.map Todo.id).Nodup ∧
      OrderSpec todos order ∧
      ∀ t ∈ todos, t.dependencies.Nodup ∧
        ∀ d ∈ t.dependencies, d ∈ todos.map Todo.id := by
  rw [topologicalSort_eq] at h
  by_cases hlen : (kahnRun todos).length = todos.length
  · rw [if_pos hlen] at h
    obtain rfl : kahnRun todos = order := by simpa using h
    obtain ⟨degF, ⟨⟨hnd, hids, _, _⟩, _, hord⟩⟩ := kahnRun_spec todos
    rw [List.append_nil] at hnd hids
    have hle := pool_length_le hnd hids
    have hnk := nKeys_le_length todos
    have hkeq : nKeys todos = todos.length := by
      have hlen2 := hlen
      omega
    have hdedup : (todos.map Todo.id).dedup = todos.map Todo.id := by
      refine (List.dedup_sublist _).eq_of_length ?_
      simpa [nKeys] using hkeq
    have hidsnd : (todos.map Todo.id).Nodup := List.dedup_eq_self.1 hdedup
    have hperm : List.Perm (kahnRun todos) ((todos.map Todo.id).dedup) := by
      refine (hnd.subperm (fun k hk => List.mem_dedup.2 (hids k hk))).perm_of_length_le ?_
      have : ((todos.map Todo.id).dedup).length = nKeys todos := rfl
      omega
    have hmemiff : ∀ k, k ∈ kahnRun todos ↔ k ∈ todos.map Todo.id := by
      intro k
      rw [hperm.mem_iff, List.mem_dedup]
    refine ⟨hnd, hlen, hmemiff, hidsnd, hord, ?_⟩
    intro t ht
    have htid : t.id ∈ kahnRun todos := (hmemiff t.id).2 (List.mem_map.2 ⟨t, ht, rfl⟩)
    obtain ⟨l1, l2, hsplit⟩ := List.append_of_mem htid
    obtain ⟨hnod, hdep⟩ := hord l1 t.id l2 hsplit t ht rfl
    refine ⟨hnod, ?_⟩
    intro d hd
    have hdl1 : d ∈ kahnRun todos := by
      rw [hsplit]
      exact List.mem_append_left _ (hdep d hd)
    exact (hmemiff d).1 hdl1
  · rw [if_neg hlen] at h
    cases h

/-- A successful topological sort certifies acyclicity. -/
theorem not_hasCycle_of_topologicalSort_some {todos : List Todo} {order : List Nat}
    (h : topologicalSort todos = some order) : ¬ HasCycle todos := by
  obtain ⟨hnd, _, hmemiff, _, hord, _⟩ := topologicalSort_some_spec h
  have hrank : ∀ u v, DependsOn todos u v → order.indexOf v < order.indexOf u := by
    intro u v huv
    rcases dependsOn_iff.1 huv with ⟨t, ht, rfl, hv⟩
    have hu : t.id ∈ order := (hmemiff t.id).2 (List.mem_map.2 ⟨t, ht, rfl⟩)
    obtain ⟨l1, l2, hsplit⟩ := List.append_of_mem hu
    obtain ⟨_, hdep⟩ := hord l1 t.id l2 hsplit t ht rfl
    have hvin : v ∈ l1 := hdep v hv
    have hul1 : t.id ∉ l1 := by
      rw [hsplit] at hnd
      have := (List.nodup_append.1 hnd).2.2
      intro hmem
      exact this hmem (List.mem_cons_self _ _)
    rw [hsplit, indexOf_append_middle hul1]
    exact indexOf_append_lt hvin
  have htrans : ∀ a b, Relation.TransGen (DependsOn todos) a b →
      order.indexOf b < order.indexOf a := by
    intro a b hab
    induction hab with
    | single h1 => exact hrank _ _ h1
    | tail _ h1 ih => exact lt_trans (hrank _ _ h1) ih
  rintro ⟨n, hn⟩
  exact absurd (htrans n n hn) (lt_irrefl _)

/-- Kahn completeness: on a clean acyclic input the sort succeeds. -/
theorem topologicalSort_some_of_acyclic {todos : List Todo}
    (hacyc : ¬ HasCycle todos) (hids : (todos.map Todo.id).Nodup)
    (hclean : ∀ t ∈ todos, t.dependencies.Nodup)
    (hpres : ∀ t ∈ todos, ∀ d ∈ t.dependencies, d ∈ todos.map Todo.id) :
    topologicalSort todos = some (kahnRun todos) := by
  classical
  obtain ⟨degF, ⟨⟨hnd, hidsR, _, hzero⟩, hdeg, _⟩⟩ := kahnRun_spec todos
  rw [List.append_nil] at hnd hidsR hzero
  have hall : ∀ k ∈ todos.map Todo.id, k ∈ kahnRun todos := by
    by_contra hnot
    push_neg at hnot
    obtain ⟨k0, hk0id, hk0R⟩ := hnot
    set M : Finset Nat :=
      ((todos.map Todo.id).toFinset).filter (fun k => k ∉ kahnRun todos) with hM
    have hk0M : k0 ∈ M := by
      rw [hM]
      exact Finset.mem_filter.2 ⟨List.mem_toFinset.2 hk0id, hk0R⟩
    have hstep : ∀ a ∈ M, ∃ b ∈ M, DependsOn todos a b := by
      intro a haM
      rw [hM, Finset.mem_filter, List.mem_toFinset] at haM
      obtain ⟨haid, haR⟩ := haM
      have hdnz : degF a ≠ 0 := fun h0 => haR (hzero a haid h0)
      have hpos : 0 < degSpec todos (kahnRun todos) a := by
        have h1 := degSpec_nonneg todos hnd a
        have h2 := hdeg a
        omega
      have hbad : ¬ ∀ t ∈ todos, t.id = a → t.dependencies.Nodup ∧
          ∀ d ∈ t.dependencies, d ∈ kahnRun todos := by
        intro hgood
        have := degSpec_eq_zero_of todos hnd hgood
        omega
      push_neg at hbad
      obtain ⟨t, ht, hta, hbad2⟩ := hbad
      obtain ⟨d, hd, hdR⟩ := hbad2 (hclean t ht)
      refine ⟨d, ?_, dependsOn_iff.2 ⟨t, ht, hta, hd⟩⟩
      rw [hM, Finset.mem_filter, List.mem_toFinset]
      exact ⟨hpres t ht d hd, hdR⟩
    obtain ⟨a, _, hcyc⟩ := exists_transGen_self M ⟨k0, hk0M⟩ hstep
    exact hacyc ⟨a, hcyc⟩
  have hlen : (kahnRun todos).length = todos.length := by
    have h1 : List.Subperm (todos.map Todo.id) (kahnRun todos) := hids.subperm hall
    have h2 := pool_length_le hnd hidsR
    have h3 := h1.length_le
    have h4 := nKeys_le_length todos
    rw [List.length_map] at h3
    omega
  rw [topologicalSort_eq, if_pos hlen]

/-! ## Keyed fold helpers -/

theorem foldl_key_not_mem {α : Type} (key : α → Nat)
    (step : (Nat → ScheduleEntry) → α → (Nat → ScheduleEntry))
    (hstep : ∀ sd x j, j ≠ key x → step sd x j = sd j) :
    ∀ (l : List α) (sd : Nat → ScheduleEntry) (j : Nat), j ∉ l.map key →
      (l.foldl step sd) j = sd j := by
  intro l
  induction l with
  | nil => intro sd j _; rfl
  | cons x l ih =>
    intro sd j hj
    rw [List.map_cons] at hj
    rw [List.foldl_cons, ih (step sd x) j (fun h => hj (List.mem_cons_of_mem _ h)),
      hstep sd x j (fun h => hj (h ▸ List.mem_cons_self _ _))]

theorem foldl_key_mem {α : Type} (key : α → Nat)
    (step : (Nat → ScheduleEntry) → α → (Nat → ScheduleEntry))
    (hstep : ∀ sd x j, j ≠ key x → step sd x j = sd j)
    (l : List α) (hnd : (l.map key).Nodup) {x : α} (hx : x ∈ l)
    (sd : Nat → ScheduleEntry) :
    ∃ l1 l2, l = l1 ++ x :: l2 ∧
      (l.foldl step sd) (key x) = (step (l1.foldl step sd) x) (key x) ∧
      ∀ j, j ∉ (x :: l2).map key → (l.foldl step sd) j = (l1.foldl step sd) j := by
  obtain ⟨l1, l2, rfl⟩ := List.append_of_mem hx
  refine ⟨l1, l2, rfl, ?_, ?_⟩
  · rw [List.foldl_append, List.foldl_cons]
    refine foldl_key_not_mem key step hstep l2 _ (key x) ?_
    rw [List.map_append, List.map_cons] at hnd
    have := (List.nodup_append.1 hnd).2.1
    simpa using (List.nodup_cons.1 this).1
  · intro j hj
    rw [List.foldl_append]
    refine foldl_key_not_mem key step hstep (x :: l2) _ j hj

theorem foldl_proj_const {α σ : Type} (g : ScheduleEntry → σ)
    (step : (Nat → ScheduleEntry) → α → (Nat → ScheduleEntry))
    (hstep : ∀ sd x j, g ((step sd x) j) = g (sd j)) :
    ∀ (l : List α) (sd : Nat → ScheduleEntry) (j : Nat),
      g ((l.foldl step sd) j) = g (sd j) := by
  intro l
  induction l with
  | nil => intro sd j; rfl
  | cons x l ih =>
    intro sd j
    rw [List.foldl_cons, ih, hstep]

/-! ## findTodo under distinct ids -/

theorem filter_id_eq_singleton {todos : List Todo} (hids : (todos.map Todo.id).Nodup)
    {t : Todo} (ht : t ∈ todos) :
    todos.filter (fun u => u.id == t.id) = [t] := by
  induction todos with
  | nil => cases ht
  | cons u rest ih =>
    rw [List.map_cons, List.nodup_cons] at hids
    rcases List.mem_cons.1 ht with rfl | ht2
    · rw [List.filter_cons_of_pos (by simp)]
      have hrest : rest.filter (fun v => v.id == t.id) = [] := by
        rw [List.filter_eq_nil]
        intro v hv
        simp only [beq_iff_eq]
        intro hvid
        exact hids.1 (List.mem_map.2 ⟨v, hv, hvid⟩)
      rw [hrest]
    · have hne : u.id ≠ t.id := by
        intro h
        exact hids.1 (h ▸ List.mem_map.2 ⟨t, ht2, rfl⟩)
      rw [List.filter_cons_of_neg (by simpa using hne)]
      exact ih hids.2 ht2

theorem findTodo_eq {todos : List Todo} (hids : (todos.map Todo.id).Nodup)
    {t : Todo} (ht : t ∈ todos) : findTodo todos t.id = t := by
  rw [findTodo, filter_id_eq_singleton hids ht]
  rfl

theorem todo_id_inj {todos : List Todo} (hids : (todos.map Todo.id).Nodup)
    {t u : Todo} (ht : t ∈ todos) (hu : u ∈ todos) (h : t.id = u.id) : t = u := by
  have h1 := findTodo_eq hids ht
  have h2 := findTodo_eq hids hu
  rw [h] at h1
  rw [← h1, h2]

/-! ## Forward pass characterization -/

theorem forwardStep_not_mem (todos : List Todo) :
    ∀ sd k j, j ≠ k → forwardStep todos sd k j = sd j := by
  intro sd k j hj
  rw [forwardStep]
  exact Function.update_noteq hj _ _

theorem forward_latest_const (todos : List Todo) (l : List Nat)
    (sd : Nat → ScheduleEntry) (j : Nat) :
    ((l.foldl (forwardStep todos) sd) j).latestStart = (sd j).latestStart ∧
      ((l.foldl (forwardStep todos) sd) j).latestFinish = (sd j).latestFinish ∧
      ((l.foldl (forwardStep todos) sd) j).slack = (sd j).slack ∧
      ((l.foldl (forwardStep todos) sd) j).isOnCriticalPath = (sd j).isOnCriticalPath := by
  refine ⟨?_, ?_, ?_, ?_⟩ <;>
    refine foldl_proj_const _ (forwardStep todos) (fun sd x j => ?_) l sd j <;>
    · rw [forwardStep]
      by_cases hj : j = x
      · subst hj; rw [Function.update_same]
      · rw [Function.update_noteq hj]

/-- What the forward pass computes, stated against the final map: each
todo's earliest start is the maximum of its dependencies' final earliest
finishes (base time 0 with no dependencies), its earliest finish adds its
duration, and the latest/slack/critical fields still hold their initial
values. -/
theorem forward_spec {todos : List Todo} {order : List Nat}
    (hnd : order.Nodup) (hids : (todos.map Todo.id).Nodup)
    (hord : OrderSpec todos order) :
    ∀ t ∈ todos, t.id ∈ order →
      (calculateForwardPass todos order) t.id =
        { earliestStart := ((t.dependencies).map
            (fun d => ((calculateForwardPass todos order) d).earliestFinish)).foldl max 0
          earliestFinish := ((t.dependencies).map
            (fun d => ((calculateForwardPass todos order) d).earliestFinish)).foldl max 0
            + duration t
          latestStart := 0
          latestFinish := 0
          slack := 0
          isOnCriticalPath := false } := by
  intro t ht hto
  obtain ⟨l1, l2, hsplit, hval, hpre⟩ := foldl_key_mem (fun k => k)
    (forwardStep todos) (forwardStep todos |> fun _ => forwardStep_not_mem todos)
    order (by simpa using hnd) hto (fun _ => entry0)
  have hstate : ∀ d ∈ t.dependencies,
      ((l1.foldl (forwardStep todos) (fun _ => entry0)) d) =
        ((calculateForwardPass todos order) d) := by
    intro d hd
    have hdl1 : d ∈ l1 := (hord l1 t.id l2 hsplit t ht rfl).2 d hd
    have hdno : d ∉ (t.id :: l2).map (fun k => k) := by
      rw [hsplit] at hnd
      have hdisj := (List.nodup_append.1 hnd).2.2
      simpa using fun hmem => hdisj hdl1 hmem
    rw [show calculateForwardPass todos order = order.foldl (forwardStep todos)
        (fun _ => entry0) from rfl, hpre d hdno]
  have hlat := forward_latest_const todos l1 (fun _ => entry0) t.id
  have hcf : calculateForwardPass todos order t.id =
      forwardStep todos (l1.foldl (forwardStep todos) (fun _ => entry0)) t.id t.id := hval
  rw [hcf, forwardStep, findTodo_eq hids ht, Function.update_same]
  have hmax : ((t.dependencies).map
      (fun d => ((l1.foldl (forwardStep todos) (fun _ => entry0)) d).earliestFinish)).foldl
        max 0 =
      ((t.dependencies).map
        (fun d => ((order.foldl (forwardStep todos) (fun _ => entry0)) d).earliestFinish)).foldl
        max 0 := by
    refine congrArg (fun L => List.foldl max 0 L) ?_
    refine List.map_congr_left ?_
    intro d hd
    rw [hstate d hd]
    rfl
  obtain ⟨e1, e2, e3, e4⟩ := hlat
  refine ScheduleEntry.ext ?_ ?_ ?_ ?_ ?_ ?_ <;> simp only []
  · exact hmax
  · rw [hmax]
    rfl
  · exact e1
  · exact e2
  · exact e3
  · exact e4

/-! ## Backward pass: earliest times are never rewritten -/

theorem backwardConnectedStep_keeps {todos : List Todo} {pend : Int}
    (g : ScheduleEntry → Int) (hg : ∀ e lf ls sl fl,
      g { e with latestFinish := lf
                 latestStart := ls
                 slack := sl
                 isOnCriticalPath := fl } = g e) :
    ∀ sd k j, g ((backwardConnectedStep todos pend sd k) j) = g (sd j) := by
  intro sd k j
  rw [backwardConnectedStep]
  split
  · rfl
  · by_cases hj : j = k
    · subst hj
      rw [Function.update_same, hg]
    · rw [Function.update_noteq hj]

theorem backwardIndependentStep_keeps {pend : Int} (g : ScheduleEntry → Int)
    (hg : ∀ e lf ls sl fl,
      g { e with latestFinish := lf
                 latestStart := ls
                 slack := sl
                 isOnCriticalPath := fl } = g e) :
    ∀ sd t j, g ((backwardIndependentStep pend sd t) j) = g (sd j) := by
  intro sd t j
  rw [backwardIndependentStep]
  by_cases hj : j = t.id
  · subst hj
    rw [Function.update_same, hg]
  · rw [Function.update_noteq hj]

theorem backwardAllIndependentStep_keeps {maxDur : Int} (g : ScheduleEntry → Int)
    (hg : ∀ e lf ls sl fl,
      g { e with latestFinish := lf
                 latestStart := ls
                 slack := sl
                 isOnCriticalPath := fl } = g e) :
    ∀ sd t j, g ((backwardAllIndependentStep maxDur sd t) j) = g (sd j) := by
  intro sd t j
  rw [backwardAllIndependentStep]
  split
  · by_cases hj : j = t.id
    · subst hj
      rw [Function.update_same]
      have := hg (sd t.id) (sd t.id).latestFinish (sd t.id).latestStart
        (sd t.id).slack true
      simpa using this
    · rw [Function.update_noteq hj]
  · by_cases hj : j = t.id
    · subst hj
      rw [Function.update_same, hg]
    · rw [Function.update_noteq hj]

theorem backward_keeps (todos : List Todo) (order : List Nat)
    (sd0 : Nat → ScheduleEntry) (g : ScheduleEntry → Int)
    (hg : ∀ e lf ls sl fl,
      g { e with latestFinish := lf
                 latestStart := ls
                 slack := sl
                 isOnCriticalPath := fl } = g e) (j : Nat) :
    g ((calculateBackwardPass todos order sd0) j) = g (sd0 j) := by
  rw [calculateBackwardPass]
  have h1 : ∀ (l : List Nat) sd j, g ((l.foldl (backwardConnectedStep todos
      (projectEndTime todos sd0)) sd) j) = g (sd j) :=
    foldl_proj_const g _ (fun sd x j => backwardConnectedStep_keeps g hg sd x j)
  have h2 : ∀ (l : List Todo) sd j, g ((l.foldl (backwardIndependentStep
      (projectEndTime todos sd0)) sd) j) = g (sd j) :=
    foldl_proj_const g _ (fun sd x j => backwardIndependentStep_keeps g hg sd x j)
  have h3 : ∀ (l : List Todo) sd j, g ((l.foldl (backwardAllIndependentStep
      (maxInt (todos.map Todo.estimatedDays)))  sd) j) = g (sd j) :=
    foldl_proj_const g _ (fun sd x j => backwardAllIndependentStep_keeps g hg sd x j)
  split
  · split
    · rw [h1]
    · rw [h2, h1]
  · split
    · split
      · rw [h1]
      · rw [h2, h1]
    · split
      · rw [h3, h1]
      · rw [h3, h2, h1]

theorem backward_ES (todos : List Todo) (order : List Nat) (sd0 : Nat → ScheduleEntry)
    (j : Nat) :
    ((calculateBackwardPass todos order sd0) j).earliestStart = (sd0 j).earliestStart :=
  backward_keeps todos order sd0 ScheduleEntry.earliestStart (fun _ _ _ _ _ => rfl) j

theorem backward_EF (todos : List Todo) (order : List Nat) (sd0 : Nat → ScheduleEntry)
    (j : Nat) :
    ((calculateBackwardPass todos order sd0) j).earliestFinish = (sd0 j).earliestFinish :=
  backward_keeps todos order sd0 ScheduleEntry.earliestFinish (fun _ _ _ _ _ => rfl) j

/-! ## Successful pipeline runs -/

theorem scheduleData_some_cases {todos : List Todo} {sd : Nat → ScheduleEntry}
    (h : (calculateCriticalPath todos).scheduleData = some sd) :
    (todos = [] ∧ sd = fun _ => entry0) ∨
      ∃ order, todos ≠ [] ∧ topologicalSort todos = some order ∧
        sd = calculateBackwardPass todos order (calculateForwardPass todos order) ∧
        (calculateCriticalPath todos).isValid = true ∧
        (calculateCriticalPath todos).criticalPath =
          some (identifyCriticalPath todos sd) := by
  by_cases hne : todos = []
  · subst hne
    rw [calculateCriticalPath_empty] at h
    simp only [Option.some.injEq] at h
    exact Or.inl ⟨rfl, h.symm⟩
  · cases hc : detectCyclesLoop (buildAdjacencyList todos) (dfsFuel todos)
        (keysOf todos) ∅ ∅ with
    | some c =>
      rw [calculateCriticalPath_of_cycle hne hc] at h
      cases h
    | none =>
      cases ht : topologicalSort todos with
      | none =>
        rw [calculateCriticalPath_of_topo_none hne hc ht] at h
        cases h
      | some order =>
        rw [calculateCriticalPath_of_topo_some hne hc ht] at h
        simp only [Option.some.injEq] at h
        refine Or.inr ⟨order, hne, rfl, h.symm, ?_, ?_⟩
        · rw [calculateCriticalPath_of_topo_some hne hc ht]
        · rw [calculateCriticalPath_of_topo_some hne hc ht, h]

theorem isValid_cases {todos : List Todo}
    (h : (calculateCriticalPath todos).isValid = true) :
    todos = [] ∨ ∃ order, todos ≠ [] ∧ topologicalSort todos = some order ∧
      (calculateCriticalPath todos).scheduleData =
        some (calculateBackwardPass todos order (calculateForwardPass todos order)) := by
  by_cases hne : todos = []
  · exact Or.inl hne
  · cases hc : detectCyclesLoop (buildAdjacencyList todos) (dfsFuel todos)
        (keysOf todos) ∅ ∅ with
    | some c =>
      rw [calculateCriticalPath_of_cycle hne hc] at h
      cases h
    | none =>
      cases ht : topologicalSort todos with
      | none =>
        rw [calculateCriticalPath_of_topo_none hne hc ht] at h
        cases h
      | some order =>
        refine Or.inr ⟨order, hne, rfl, ?_⟩
        rw [calculateCriticalPath_of_topo_some hne hc ht]

/-! ## Claims C2, C4, C5 -/

/-- C4 (amended): with distinct task ids, duplicate-free dependency lists
and every referenced id present, `topologicalSort` returns `null` exactly
when the dependency graph contains a cycle; a returned order is a
duplicate-free enumeration of exactly the task ids in which every task
appears after all tasks it depends on. -/
theorem topologicalSort_null_iff_cycle (todos : List Todo)
    (hids : (todos.map Todo.id).Nodup)
    (hdeps : ∀ t ∈ todos, t.dependencies.Nodup)
    (hpres : ∀ t ∈ todos, ∀ d ∈ t.dependencies, d ∈ todos.map Todo.id) :
    (topologicalSort todos = none ↔ HasCycle todos) ∧
      ∀ order, topologicalSort todos = some order →
        order.Nodup ∧ (∀ k, k ∈ order ↔ k ∈ todos.map Todo.id) ∧
        ∀ l1 k l2, order = l1 ++ k :: l2 → ∀ t ∈ todos, t.id = k →
          ∀ d ∈ t.dependencies, d ∈ l1 := by
  constructor
  · constructor
    · intro hnone
      by_contra hacyc
      rw [topologicalSort_some_of_acyclic hacyc hids hdeps hpres] at hnone
      cases hnone
    · intro hcyc
      cases ht : topologicalSort todos with
      | none => rfl
      | some order => exact absurd hcyc (not_hasCycle_of_topologicalSort_some ht)
  · intro order ht
    obtain ⟨h1, _, h3, _, h5, _⟩ := topologicalSort_some_spec ht
    exact ⟨h1, h3, fun l1 k l2 hs t htm hid => (h5 l1 k l2 hs t htm hid).2⟩

/-- Witness input for C4/C2: a clean acyclic two-task chain. -/
def chainInput : List Todo := [⟨1, 1, []⟩, ⟨2, 3, [1]⟩]

/-- Witness for the amended C4 at `chainInput`. -/
theorem topologicalSort_null_iff_cycle_witness :
    ((chainInput.map Todo.id).Nodup ∧ (∀ t ∈ chainInput, t.dependencies.Nodup) ∧
      (∀ t ∈ chainInput, ∀ d ∈ t.dependencies, d ∈ chainInput.map Todo.id)) ∧
      ((topologicalSort chainInput = none ↔ HasCycle chainInput) ∧
        ∀ order, topologicalSort chainInput = some order →
          order.Nodup ∧ (∀ k, k ∈ order ↔ k ∈ chainInput.map Todo.id) ∧
          ∀ l1 k l2, order = l1 ++ k :: l2 → ∀ t ∈ chainInput, t.id = k →
            ∀ d ∈ t.dependencies, d ∈ l1) :=
  ⟨⟨by decide, by decide, by decide⟩,
    topologicalSort_null_iff_cycle chainInput (by decide) (by decide) (by decide)⟩

/-- C2 (amended): an acyclic input with distinct ids, duplicate-free
dependency lists and all referenced ids present gets a valid result, and
in its schedule every task's earliest finish is its earliest start plus
its duration. -/
theorem acyclic_clean_input_valid (todos : List Todo)
    (hacyc : ¬ HasCycle todos)
    (hids : (todos.map Todo.id).Nodup)
    (hdeps : ∀ t ∈ todos, t.dependencies.Nodup)
    (hpres : ∀ t ∈ todos, ∀ d ∈ t.dependencies, d ∈ todos.map Todo.id) :
    (calculateCriticalPath todos).isValid = true ∧
      ∀ sd, (calculateCriticalPath todos).scheduleData = some sd →
        ∀ t ∈ todos,
          (sd t.id).earliestFinish = (sd t.id).earliestStart + duration t := by
  by_cases hne : todos = []
  · subst hne
    rw [calculateCriticalPath_empty]
    exact ⟨rfl, fun sd hsd t ht => by cases ht⟩
  · have hc := detectCyclesLoop_none_of_acyclic hacyc
    have ht := topologicalSort_some_of_acyclic hacyc hids hdeps hpres
    rw [calculateCriticalPath_of_topo_some hne hc ht]
    refine ⟨rfl, ?_⟩
    intro sd hsd t htm
    simp only [Option.some.injEq] at hsd
    subst hsd
    obtain ⟨hnd, _, hmem, _, hord, _⟩ := topologicalSort_some_spec ht
    have hto : t.id ∈ kahnRun todos := (hmem t.id).2 (List.mem_map.2 ⟨t, htm, rfl⟩)
    have hf := forward_spec hnd hids hord t htm hto
    rw [backward_ES, backward_EF, hf]

/-- Witness for the amended C2 at `chainInput`. -/
theorem acyclic_clean_input_valid_witness :
    (¬ HasCycle chainInput ∧ (chainInput.map Todo.id).Nodup ∧
      (∀ t ∈ chainInput, t.dependencies.Nodup) ∧
      (∀ t ∈ chainInput, ∀ d ∈ t.dependencies, d ∈ chainInput.map Todo.id)) ∧
      ((calculateCriticalPath chainInput).isValid = true ∧
        ∀ sd, (calculateCriticalPath chainInput).scheduleData = some sd →
          ∀ t ∈ chainInput,
            (sd t.id).earliestFinish = (sd t.id).earliestStart + duration t) := by
  have hacyc : ¬ HasCycle chainInput :=
    not_hasCycle_of_topologicalSort_some (show topologicalSort chainInput = some [1, 2] by decide)
  exact ⟨⟨hacyc, by decide, by decide, by decide⟩,
    acyclic_clean_input_valid chainInput hacyc (by decide) (by decide) (by decide)⟩

/-- C5: for acyclic inputs with all referenced ids present, the computed
schedule starts every task at the maximum of its dependencies' earliest
finishes (the base epoch when it has none), so every task starts no
earlier than each dependency finishes. -/
theorem forward_dependency_ordering (todos : List Todo)
    (hacyc : ¬ HasCycle todos)
    (hpres : ∀ t ∈ todos, ∀ d ∈ t.dependencies, d ∈ todos.map Todo.id) :
    ∀ sd, (calculateCriticalPath todos).scheduleData = some sd →
      ∀ t ∈ todos,
        (sd t.id).earliestStart =
          ((t.dependencies).map (fun d => (sd d).earliestFinish)).foldl max 0 ∧
        ∀ d ∈ t.dependencies, (sd d).earliestFinish ≤ (sd t.id).earliestStart := by
  intro sd hsd
  rcases scheduleData_some_cases hsd with ⟨rfl, rfl⟩ | ⟨order, hne, ht, rfl, _, _⟩
  · intro t ht
    cases ht
  · intro t htm
    obtain ⟨hnd, _, hmem, hids, hord, _⟩ := topologicalSort_some_spec ht
    have hto : t.id ∈ order := (hmem t.id).2 (List.mem_map.2 ⟨t, htm, rfl⟩)
    have hf := forward_spec hnd hids hord t htm hto
    have hESmax : ((calculateForwardPass todos order) t.id).earliestStart =
        ((t.dependencies).map
          (fun d => ((calculateForwardPass todos order) d).earliestFinish)).foldl max 0 := by
      rw [hf]
    constructor
    · rw [backward_ES, hESmax]
      refine congrArg (fun L => List.foldl max 0 L) (List.map_congr_left ?_)
      intro d _
      rw [backward_EF]
    · intro d hd
      rw [backward_ES, backward_EF, hESmax]
      exact le_foldl_max_mem _ 0 (List.mem_map.2 ⟨d, hd, rfl⟩)

/-- Witness for C5 at `chainInput`. -/
theorem forward_dependency_ordering_witness :
    (¬ HasCycle chainInput ∧
      (∀ t ∈ chainInput, ∀ d ∈ t.dependencies, d ∈ chainInput.map Todo.id)) ∧
      ∀ sd, (calculateCriticalPath chainInput).scheduleData = some sd →
        ∀ t ∈ chainInput,
          (sd t.id).earliestStart =
            ((t.dependencies).map (fun d => (sd d).earliestFinish)).foldl max 0 ∧
          ∀ d ∈ t.dependencies, (sd d).earliestFinish ≤ (sd t.id).earliestStart := by
  have hacyc : ¬ HasCycle chainInput :=
    not_hasCycle_of_topologicalSort_some (show topologicalSort chainInput = some [1, 2] by decide)
  exact ⟨⟨hacyc, by decide⟩, forward_dependency_ordering chainInput hacyc (by decide)⟩

/-! ## Backward pass helpers -/

theorem foldl_skip_keeps {α : Type} (key : α → Nat)
    (step : (Nat → ScheduleEntry) → α → (Nat → ScheduleEntry)) (P : Nat → Prop)
    (hskip : ∀ sd x, P (key x) → step sd x = sd)
    (hstep : ∀ sd x j, j ≠ key x → step sd x j = sd j) :
    ∀ (l : List α) (sd : Nat → ScheduleEntry) (j : Nat), P j →
      (l.foldl step sd) j = sd j := by
  intro l
  induction l with
  | nil => intro sd j _; rfl
  | cons x l ih =>
    intro sd j hj
    rw [List.foldl_cons, ih _ j hj]
    by_cases hxj : j = key x
    · rw [hskip sd x (hxj ▸ hj)]
    · exact hstep sd x j hxj

theorem maxInt_mem : ∀ {l : List Int}, l ≠ [] → maxInt l ∈ l := by
  have haux : ∀ (xs : List Int) (x : Int), xs.foldl max x ∈ x :: xs := by
    intro xs
    induction xs with
    | nil => intro x; simp
    | cons y ys ih =>
      intro x
      rw [List.foldl_cons]
      rcases List.mem_cons.1 (ih (max x y)) with hm | hm
      · rcases max_choice x y with h | h <;> rw [hm, h] <;> simp
      · simp [List.mem_cons_of_mem, hm]
  intro l hl
  cases l with
  | nil => exact absurd rfl hl
  | cons x xs => exact haux xs x

theorem nodup_split_unique {a b c d : List Nat} {x : Nat}
    (hnd : (a ++ x :: b).Nodup) (h : a ++ x :: b = c ++ x :: d) : a = c ∧ b = d := by
  have hxa : x ∉ a := by
    have hd := (List.nodup_append.1 hnd).2.2
    intro hmem
    exact hd hmem (List.mem_cons_self _ _)
  have hxc : x ∉ c := by
    rw [h] at hnd
    have hd := (List.nodup_append.1 hnd).2.2
    intro hmem
    exact hd hmem (List.mem_cons_self _ _)
  have h1 : (a ++ x :: b).indexOf x = a.length := indexOf_append_middle hxa
  have h2 : (a ++ x :: b).indexOf x = c.length := by
    rw [h]
    exact indexOf_append_middle hxc
  obtain ⟨h3, h4⟩ := List.append_inj h (by omega)
  refine ⟨h3, ?_⟩
  injection h4

theorem conn_any_deps {todos : List Todo} {t : Todo} (ht : t ∈ todos)
    (hc : isIndependent todos t = false) :
    todos.any (fun u => !u.dependencies.isEmpty) = true := by
  rw [isIndependent, Bool.and_eq_false_iff] at hc
  rcases hc with hc | hc
  · rw [List.any_eq_true]
    exact ⟨t, ht, by rw [hc]; rfl⟩
  · rw [Bool.not_eq_false', List.any_eq_true] at hc
    obtain ⟨o, ho, hod⟩ := hc
    rw [List.any_eq_true]
    refine ⟨o, ho, ?_⟩
    have hmem : t.id ∈ o.dependencies := List.elem_iff.1 hod
    cases hdep : o.dependencies with
    | nil => rw [hdep] at hmem; cases hmem
    | cons a l => simp [hdep]

theorem indep_filter_eq_self {todos : List Todo}
    (h : todos.any (fun u => !u.dependencies.isEmpty) = false) :
    independentTasks todos = todos := by
  rw [independentTasks, List.filter_eq_self]
  simp only [List.any_eq_false, Bool.not_eq_true'] at h
  have h2 : ∀ x ∈ todos, x.dependencies.isEmpty = true := by
    intro x hx
    cases hb : x.dependencies.isEmpty
    · exact absurd hb (h x hx)
    · rfl
  intro t ht
  rw [isIndependent, Bool.and_eq_true]
  refine ⟨h2 t ht, ?_⟩
  rw [Bool.not_eq_true', List.any_eq_false]
  intro o ho
  cases hcon : o.dependencies.contains t.id
  · simp
  · exfalso
    have hmem : t.id ∈ o.dependencies := List.elem_iff.1 hcon
    have hemp := h2 o ho
    rw [List.isEmpty_iff] at hemp
    rw [hemp] at hmem
    cases hmem

theorem indep_any_id_true {todos : List Todo} {t : Todo} (ht : t ∈ todos)
    (hi : isIndependent todos t = true) :
    (independentTasks todos).any (fun u => u.id == t.id) = true := by
  rw [List.any_eq_true]
  exact ⟨t, List.mem_filter.2 ⟨ht, hi⟩, by simp⟩

theorem conn_any_id_false {todos : List Todo} (hids : (todos.map Todo.id).Nodup)
    {t : Todo} (ht : t ∈ todos) (hc : isIndependent todos t = false) :
    (independentTasks todos).any (fun u => u.id == t.id) = false := by
  cases hany : (independentTasks todos).any (fun u => u.id == t.id)
  · rfl
  · exfalso
    rw [List.any_eq_true] at hany
    obtain ⟨u, hu, huid⟩ := hany
    obtain ⟨humem, huind⟩ := List.mem_filter.1 hu
    have : u = t := todo_id_inj hids humem ht (by simpa using huid)
    rw [this] at huind
    rw [huind] at hc
    cases hc

theorem conn_not_mem_indep_ids {todos : List Todo} (hids : (todos.map Todo.id).Nodup)
    {t : Todo} (ht : t ∈ todos) (hc : isIndependent todos t = false) :
    t.id ∉ (independentTasks todos).map Todo.id := by
  intro hmem
  rcases List.mem_map.1 hmem with ⟨u, hu, huid⟩
  obtain ⟨humem, huind⟩ := List.mem_filter.1 hu
  have : u = t := todo_id_inj hids humem ht huid
  rw [this] at huind
  rw [huind] at hc
  cases hc

theorem backwardConnectedStep_not_mem (todos : List Todo) (pend : Int) :
    ∀ sd k j, j ≠ k → backwardConnectedStep todos pend sd k j = sd j := by
  intro sd k j hj
  rw [backwardConnectedStep]
  split
  · rfl
  · exact Function.update_noteq hj _ _

theorem backwardIndependentStep_not_mem (pend : Int) :
    ∀ sd (t : Todo) j, j ≠ t.id → backwardIndependentStep pend sd t j = sd j := by
  intro sd t j hj
  rw [backwardIndependentStep]
  exact Function.update_noteq hj _ _

theorem backwardAllIndependentStep_not_mem (maxDur : Int) :
    ∀ sd (t : Todo) j, j ≠ t.id → backwardAllIndependentStep maxDur sd t j = sd j := by
  intro sd t j hj
  rw [backwardAllIndependentStep]
  split
  · exact Function.update_noteq hj _ _
  · exact Function.update_noteq hj _ _

theorem regime1_skips_indep (todos : List Todo) (pend : Int) (l : List Nat)
    (sd0 : Nat → ScheduleEntry) {j : Nat}
    (hj : (independentTasks todos).any (fun u => u.id == j) = true) :
    (l.foldl (backwardConnectedStep todos pend) sd0) j = sd0 j := by
  refine foldl_skip_keeps (fun k => k) _
    (fun j => (independentTasks todos).any (fun u => u.id == j) = true) ?_
    (backwardConnectedStep_not_mem todos pend) l sd0 j hj
  intro sd x hx
  rw [backwardConnectedStep, if_pos hx]

theorem pend_ge_EF {todos : List Todo} (sd0 : Nat → ScheduleEntry) {t : Todo}
    (ht : t ∈ todos) : (sd0 t.id).earliestFinish ≤ projectEndTime todos sd0 := by
  refine le_maxInt_of_mem ?_
  exact List.mem_map.2 ⟨t.id, mem_keysOf.2 (List.mem_map.2 ⟨t, ht, rfl⟩), rfl⟩

theorem forward_indep {todos : List Todo} {order : List Nat}
    (hnd : order.Nodup) (hids : (todos.map Todo.id).Nodup)
    (hord : OrderSpec todos order) {t : Todo} (ht : t ∈ todos) (hto : t.id ∈ order)
    (hdeps : t.dependencies = []) :
    (calculateForwardPass todos order) t.id =
      { earliestStart := 0
        earliestFinish := duration t
        latestStart := 0
        latestFinish := 0
        slack := 0
        isOnCriticalPath := false } := by
  rw [forward_spec hnd hids hord t ht hto, hdeps]
  simp

theorem reverse_split {order n1 n2 : List Nat} {k : Nat}
    (h : order = n1 ++ k :: n2) : order.reverse = n2.reverse ++ k :: n1.reverse := by
  rw [h]
  simp [List.reverse_append]

theorem orderSpec_succ_after {todos : List Todo} {order : List Nat}
    (hnd : order.Nodup) (hord : OrderSpec todos order) {n1 n2 : List Nat} {k : Nat}
    (hsplit : order = n1 ++ k :: n2) {s : Todo} (hs : s ∈ todos)
    (hsid : s.id ∈ order) (hk : k ∈ s.dependencies) : s.id ∈ n2 := by
  obtain ⟨m1, m2, hm⟩ := List.append_of_mem hsid
  have hkm1 : k ∈ m1 := (hord m1 s.id m2 hm s hs rfl).2 k hk
  obtain ⟨a, b, hab⟩ := List.append_of_mem hkm1
  have hm2 : order = a ++ k :: (b ++ s.id :: m2) := by
    rw [hm, hab]
    simp
  have hnd2 : (n1 ++ k :: n2).Nodup := hsplit ▸ hnd
  obtain ⟨_, hn2⟩ := nodup_split_unique hnd2 (hsplit.symm.trans hm2)
  rw [hn2]
  exact List.mem_append_right _ (List.mem_cons_self _ _)

/-- Shape of a connected (non-independent) task's entry after the first
backward regime: latest times consistent with some finish time `lf` no
earlier than the task's earliest finish, slack and the critical flag
derived from it, earliest times untouched. -/
def ConnShape (todos : List Todo) (sd0 sd1 : Nat → ScheduleEntry) (t : Todo) : Prop :=
  ∃ lf, sd1 t.id =
      { earliestStart := (sd0 t.id).earliestStart
        earliestFinish := (sd0 t.id).earliestFinish
        latestStart := lf - duration t
        latestFinish := lf
        slack := lf - duration t - (sd0 t.id).earliestStart
        isOnCriticalPath := decide (|lf - duration t - (sd0 t.id).earliestStart| < 1000) } ∧
    (sd0 t.id).earliestFinish ≤ lf

theorem regime1_shape {todos : List Todo} {order : List Nat}
    (hnd : order.Nodup) (hids : (todos.map Todo.id).Nodup)
    (hmem : ∀ k, k ∈ order ↔ k ∈ todos.map Todo.id) (hord : OrderSpec todos order) :
    ∀ t ∈ todos, isIndependent todos t = false →
      ConnShape todos (calculateForwardPass todos order)
        ((order.reverse).foldl (backwardConnectedStep todos
          (projectEndTime todos (calculateForwardPass todos order)))
          (calculateForwardPass todos order)) t := by
  set sd0 := calculateForwardPass todos order with hsd0
  set pend := projectEndTime todos sd0 with hpend
  set step := backwardConnectedStep todos pend with hstep
  have hndr : (order.reverse).Nodup := by
    rw [List.nodup_reverse]
    exact hnd
  have hkeepES : ∀ (l : List Nat) sd j,
      ((l.foldl step sd) j).earliestStart = (sd j).earliestStart :=
    foldl_proj_const _ step (fun sd x j =>
      backwardConnectedStep_keeps ScheduleEntry.earliestStart (fun _ _ _ _ _ => rfl) sd x j)
  have hkeepEF : ∀ (l : List Nat) sd j,
      ((l.foldl step sd) j).earliestFinish = (sd j).earliestFinish :=
    foldl_proj_const _ step (fun sd x j =>
      backwardConnectedStep_keeps ScheduleEntry.earliestFinish (fun _ _ _ _ _ => rfl) sd x j)
  suffices haux : ∀ (rest p : List Nat), order.reverse = p ++ rest →
      (∀ t ∈ todos, isIndependent todos t = false → t.id ∈ p →
        ConnShape todos sd0 ((order.reverse).foldl step sd0) t) →
      ∀ t ∈ todos, isIndependent todos t = false →
        ConnShape todos sd0 ((order.reverse).foldl step sd0) t by
    refine haux order.reverse [] rfl ?_
    intro t _ _ htid
    cases htid
  intro rest
  induction rest with
  | nil =>
    intro p hp hinv t ht hc
    refine hinv t ht hc ?_
    have h2 : t.id ∈ order.reverse :=
      List.mem_reverse.2 ((hmem t.id).2 (List.mem_map.2 ⟨t, ht, rfl⟩))
    rw [hp] at h2
    simpa using h2
  | cons k rest ihrest =>
    intro p hp hinv
    refine ihrest (p ++ [k]) (by rw [hp, List.append_assoc]; rfl) ?_
    intro t ht hc htid
    rcases List.mem_append.1 htid with htp | htk
    · exact hinv t ht hc htp
    · -- t is the connected task processed at this position
      have htk2 : t.id = k := by simpa using htk
      subst htk2
      have hstate : (order.reverse).foldl step sd0 t.id =
          (step (p.foldl step sd0) t.id) t.id := by
        rw [hp, List.foldl_append, List.foldl_cons]
        refine foldl_key_not_mem (fun j => j) step
          (backwardConnectedStep_not_mem todos pend) rest _ t.id ?_
        have := hp ▸ hndr
        have hdisj := (List.nodup_append.1 this).2.1
        simpa using (List.nodup_cons.1 hdisj).1
      set sp := p.foldl step sd0 with hsp
      have hfrozen : ∀ j ∈ p, (order.reverse).foldl step sd0 j = sp j := by
        intro j hj
        rw [hp, List.foldl_append]
        refine foldl_key_not_mem (fun j => j) step
          (backwardConnectedStep_not_mem todos pend) (t.id :: rest) _ j ?_
        have := hp ▸ hndr
        have hdisj := (List.nodup_append.1 this).2.2
        simpa using fun hmem2 => hdisj hj hmem2
      have horder2 : order = rest.reverse ++ t.id :: p.reverse := by
        have : order.reverse.reverse = (p ++ t.id :: rest).reverse := by rw [hp]
        rw [List.reverse_reverse] at this
        rw [this]
        simp [List.reverse_append]
      rw [hstep, backwardConnectedStep] at hstate
      rw [if_neg (by simp [conn_any_id_false hids ht hc])] at hstate
      simp only [Function.update_same] at hstate
      rw [findTodo_eq hids ht] at hstate
      set succs := todos.filter (fun s => s.dependencies.contains t.id) with hsuccs
      set lf := if succs.isEmpty then pend
        else (succs.map (fun s => (sp s.id).latestStart)).foldl min pend with hlf
      refine ⟨lf, ?_, ?_⟩
      · rw [hstate]
        have e1 : (sp t.id).earliestStart = (sd0 t.id).earliestStart :=
          hkeepES p sd0 t.id
        have e2 : (sp t.id).earliestFinish = (sd0 t.id).earliestFinish :=
          hkeepEF p sd0 t.id
        refine ScheduleEntry.ext ?_ ?_ ?_ ?_ ?_ ?_ <;> simp only []
        · exact e1
        · exact e2
        · exact congrArg (fun z => lf - duration t - z) e1
        · exact congrArg (fun z => decide (|lf - duration t - z| < 1000)) e1
      · -- lf is at least the earliest finish of t
        have hEFpend : (sd0 t.id).earliestFinish ≤ pend := pend_ge_EF sd0 ht
        rw [hlf]
        split
        · exact hEFpend
        · rw [le_foldl_min_iff]
          refine ⟨hEFpend, ?_⟩
          intro x hx
          rcases List.mem_map.1 hx with ⟨s, hsmem, rfl⟩
          obtain ⟨hs, hsdep⟩ := List.mem_filter.1 (hsuccs ▸ hsmem)
          have hsk : t.id ∈ s.dependencies := List.elem_iff.1 hsdep
          have hsconn : isIndependent todos s = false := by
            rw [isIndependent]
            cases hdep : s.dependencies with
            | nil => rw [hdep] at hsk; cases hsk
            | cons a l => simp [hdep]
          have hsid : s.id ∈ order := (hmem s.id).2 (List.mem_map.2 ⟨s, hs, rfl⟩)
          have hsp2 : s.id ∈ p := by
            have := orderSpec_succ_after hnd hord horder2 hs hsid hsk
            simpa using this
          obtain ⟨lfs, hshape, hlfs⟩ := hinv s hs hsconn hsp2
          have hfr := hfrozen s.id hsp2
          rw [hshape] at hfr
          have hLS : (sp s.id).latestStart = lfs - duration s := by
            rw [← hfr]
          have hEFS : (sd0 s.id).earliestFinish =
              (sd0 s.id).earliestStart + duration s := by
            rw [hsd0, forward_spec hnd hids hord s hs hsid]
          have hESge : (sd0 t.id).earliestFinish ≤ (sd0 s.id).earliestStart := by
            rw [hsd0, forward_spec hnd hids hord s hs hsid]
            simp only []
            exact le_foldl_max_mem _ 0 (List.mem_map.2 ⟨t.id, hsk, rfl⟩)
          rw [hLS]
          omega

theorem eq_nil_of_isEmpty {α : Type} {l : List α} (h : l.isEmpty = true) : l = [] := by
  cases l with
  | nil => rfl
  | cons a as => exact Bool.noConfusion h

theorem deps_nil_of_no_deps {todos : List Todo}
    (h : todos.any (fun u => !u.dependencies.isEmpty) = false) :
    ∀ u ∈ todos, u.dependencies = [] := by
  intro u hu
  simp only [List.any_eq_false] at h
  have h2 := h u hu
  cases hd : u.dependencies with
  | nil => rfl
  | cons a l =>
    exfalso
    rw [hd] at h2
    exact h2 rfl

theorem all_indep_of_no_deps {todos : List Todo}
    (h : todos.any (fun u => !u.dependencies.isEmpty) = false) :
    ∀ u ∈ todos, isIndependent todos u = true := by
  intro u hu
  rw [isIndependent]
  have h1 : u.dependencies.isEmpty = true := by
    rw [deps_nil_of_no_deps h u hu]
    rfl
  have h2 : todos.any (fun o => o.dependencies.contains u.id) = false := by
    rw [List.any_eq_false]
    intro o ho
    rw [deps_nil_of_no_deps h o ho]
    intro hx
    exact Bool.noConfusion hx
  rw [h1, h2]
  rfl

/-- Shape of an independent task's entry after the second backward
regime: latest times pinned to the project end, slack zero when the
task's finish reaches the project end within the 1s tolerance and the
remaining gap otherwise, flagged critical exactly in the former case. -/
theorem regime2_shape {todos : List Todo} {order : List Nat}
    (hnd : order.Nodup) (hids : (todos.map Todo.id).Nodup)
    (hmem : ∀ k, k ∈ order ↔ k ∈ todos.map Todo.id) (hord : OrderSpec todos order) :
    ∀ t ∈ todos, isIndependent todos t = true →
      ((independentTasks todos).foldl
          (backwardIndependentStep (projectEndTime todos (calculateForwardPass todos order)))
          ((order.reverse).foldl
            (backwardConnectedStep todos
              (projectEndTime todos (calculateForwardPass todos order)))
            (calculateForwardPass todos order))) t.id =
        { earliestStart := 0
          earliestFinish := duration t
          latestStart := projectEndTime todos (calculateForwardPass todos order) - duration t
          latestFinish := projectEndTime todos (calculateForwardPass todos order)
          slack := if duration t ≥
                projectEndTime todos (calculateForwardPass todos order) - 1000 then 0
            else projectEndTime todos (calculateForwardPass todos order) - duration t
          isOnCriticalPath := decide (duration t ≥
            projectEndTime todos (calculateForwardPass todos order) - 1000) } := by
  intro t ht hi
  set sd0 := calculateForwardPass todos order with hsd0
  set pend := projectEndTime todos sd0 with hpend
  set sd1 := (order.reverse).foldl (backwardConnectedStep todos pend) sd0 with hsd1
  have htmem : t ∈ independentTasks todos := List.mem_filter.2 ⟨ht, hi⟩
  have hindnd : ((independentTasks todos).map Todo.id).Nodup :=
    List.Nodup.sublist (List.Sublist.map Todo.id (List.filter_sublist todos)) hids
  obtain ⟨l1, l2, hsplit, hval, -⟩ := foldl_key_mem Todo.id
    (backwardIndependentStep pend) (backwardIndependentStep_not_mem pend)
    (independentTasks todos) hindnd htmem sd1
  have hES2 : ((l1.foldl (backwardIndependentStep pend) sd1) t.id).earliestStart
      = (sd1 t.id).earliestStart :=
    foldl_proj_const ScheduleEntry.earliestStart (backwardIndependentStep pend)
      (fun sd x j => backwardIndependentStep_keeps ScheduleEntry.earliestStart
        (fun _ _ _ _ _ => rfl) sd x j) l1 sd1 t.id
  have hEF2 : ((l1.foldl (backwardIndependentStep pend) sd1) t.id).earliestFinish
      = (sd1 t.id).earliestFinish :=
    foldl_proj_const ScheduleEntry.earliestFinish (backwardIndependentStep pend)
      (fun sd x j => backwardIndependentStep_keeps ScheduleEntry.earliestFinish
        (fun _ _ _ _ _ => rfl) sd x j) l1 sd1 t.id
  have hES1 : (sd1 t.id).earliestStart = (sd0 t.id).earliestStart := by
    rw [hsd1]
    exact foldl_proj_const ScheduleEntry.earliestStart (backwardConnectedStep todos pend)
      (fun sd x j => backwardConnectedStep_keeps ScheduleEntry.earliestStart
        (fun _ _ _ _ _ => rfl) sd x j) order.reverse sd0 t.id
  have hEF1 : (sd1 t.id).earliestFinish = (sd0 t.id).earliestFinish := by
    rw [hsd1]
    exact foldl_proj_const ScheduleEntry.earliestFinish (backwardConnectedStep todos pend)
      (fun sd x j => backwardConnectedStep_keeps ScheduleEntry.earliestFinish
        (fun _ _ _ _ _ => rfl) sd x j) order.reverse sd0 t.id
  have hdeps : t.dependencies = [] := by
    rw [isIndependent, Bool.and_eq_true] at hi
    exact eq_nil_of_isEmpty hi.1
  have hto : t.id ∈ order := (hmem t.id).2 (List.mem_map.2 ⟨t, ht, rfl⟩)
  have hf : sd0 t.id =
      { earliestStart := 0
        earliestFinish := duration t
        latestStart := 0
        latestFinish := 0
        slack := 0
        isOnCriticalPath := false } := by
    rw [hsd0]
    exact forward_indep hnd hids hord ht hto hdeps
  have hES : ((l1.foldl (backwardIndependentStep pend) sd1) t.id).earliestStart = 0 := by
    rw [hES2, hES1, hf]
  have hEF : ((l1.foldl (backwardIndependentStep pend) sd1) t.id).earliestFinish
      = duration t := by
    rw [hEF2, hEF1, hf]
  rw [hval, backwardIndependentStep]
  simp only [Function.update_same]
  refine ScheduleEntry.ext ?_ ?_ ?_ ?_ ?_ ?_
  · exact hES
  · exact hEF
  · rfl
  · rfl
  · exact congrArg (fun z => if z ≥ pend - 1000 then (0 : Int) else pend - z) hEF
  · exact congrArg (fun z => decide (z ≥ pend - 1000)) hEF

/-- When no task has any dependency the project end time is the maximum
duration, i.e. the largest `estimatedDays` converted to milliseconds. -/
theorem pend_all_indep {todos : List Todo} {order : List Nat}
    (hnd : order.Nodup) (hids : (todos.map Todo.id).Nodup)
    (hmem : ∀ k, k ∈ order ↔ k ∈ todos.map Todo.id) (hord : OrderSpec todos order)
    (hall : ∀ u ∈ todos, u.dependencies = []) (hne : todos ≠ []) :
    projectEndTime todos (calculateForwardPass todos order) =
      maxInt (todos.map Todo.estimatedDays) * (24 * 60 * 60 * 1000) := by
  obtain ⟨t0, ht0⟩ := List.exists_mem_of_ne_nil todos hne
  have hEFeq : ∀ u ∈ todos,
      ((calculateForwardPass todos order) u.id).earliestFinish = duration u :=
    fun u hu => congrArg ScheduleEntry.earliestFinish
      (forward_indep hnd hids hord hu
        ((hmem u.id).2 (List.mem_map.2 ⟨u, hu, rfl⟩)) (hall u hu))
  refine le_antisymm ?_ ?_
  · rw [projectEndTime]
    rw [maxInt_le_iff (List.ne_nil_of_mem (List.mem_map.2
      ⟨t0.id, mem_keysOf.2 (List.mem_map.2 ⟨t0, ht0, rfl⟩), rfl⟩))]
    intro x hx
    rcases List.mem_map.1 hx with ⟨k, hk, rfl⟩
    rcases List.mem_map.1 (mem_keysOf.1 hk) with ⟨u, hu, rfl⟩
    rw [hEFeq u hu, duration]
    exact mul_le_mul_of_nonneg_right
      (le_maxInt_of_mem (List.mem_map.2 ⟨u, hu, rfl⟩)) (by norm_num)
  · have hmne : todos.map Todo.estimatedDays ≠ [] := by
      cases todos with
      | nil => exact absurd rfl hne
      | cons a l => simp
    obtain ⟨u, hu, hud⟩ := List.mem_map.1 (maxInt_mem hmne)
    have h2 : maxInt (todos.map Todo.estimatedDays) * (24 * 60 * 60 * 1000)
        = duration u := by
      rw [duration, hud]
    rw [h2, ← hEFeq u hu]
    exact pend_ge_EF (calculateForwardPass todos order) hu

/-- The final backward-pass entry of every task, in all three regimes:
the latest window spans exactly the task's duration, slack is
non-negative, a flagged task has slack within the 1s tolerance, and a
task with zero slack is flagged. -/
theorem backward_shape {todos : List Todo} {order : List Nat}
    (hts : topologicalSort todos = some order) :
    ∀ t ∈ todos,
      (((calculateBackwardPass todos order (calculateForwardPass todos order)) t.id).latestFinish
          - ((calculateBackwardPass todos order (calculateForwardPass todos order)) t.id).latestStart
        = duration t) ∧
      0 ≤ ((calculateBackwardPass todos order (calculateForwardPass todos order)) t.id).slack ∧
      (((calculateBackwardPass todos order
          (calculateForwardPass todos order)) t.id).isOnCriticalPath = true →
        |((calculateBackwardPass todos order
          (calculateForwardPass todos order)) t.id).slack| < 1000) ∧
      (((calculateBackwardPass todos order (calculateForwardPass todos order)) t.id).slack = 0 →
        ((calculateBackwardPass todos order
          (calculateForwardPass todos order)) t.id).isOnCriticalPath = true) := by
  obtain ⟨hnd, hlen, hmem, hids, hord, hclean⟩ := topologicalSort_some_spec hts
  intro t ht
  set sd0 := calculateForwardPass todos order with hsd0
  set pend := projectEndTime todos sd0 with hpend
  set sd1 := (order.reverse).foldl (backwardConnectedStep todos pend) sd0 with hsd1
  set sd2 := (if (independentTasks todos).isEmpty then sd1
    else (independentTasks todos).foldl (backwardIndependentStep pend) sd1) with hsd2
  have hBP : calculateBackwardPass todos order sd0 =
      (if todos.any (fun u => !u.dependencies.isEmpty) then sd2
       else if todos.isEmpty then sd2
       else todos.foldl
         (backwardAllIndependentStep (maxInt (todos.map Todo.estimatedDays))) sd2) := rfl
  rw [hBP]
  by_cases hany : todos.any (fun u => !u.dependencies.isEmpty) = true
  · rw [if_pos hany]
    by_cases hi : isIndependent todos t = true
    · -- regime 2: independent task among connected ones
      have htmem : t ∈ independentTasks todos := List.mem_filter.2 ⟨ht, hi⟩
      have hie : ¬ ((independentTasks todos).isEmpty = true) := by
        intro hE
        rw [eq_nil_of_isEmpty hE] at htmem
        cases htmem
      have hs2 : sd2 = (independentTasks todos).foldl (backwardIndependentStep pend) sd1 := by
        rw [hsd2]
        exact if_neg hie
      have hsh := regime2_shape hnd hids hmem hord t ht hi
      rw [← hsd0, ← hpend, ← hsd1, ← hs2] at hsh
      rw [hsh]
      refine ⟨?_, ?_, ?_, ?_⟩
      · show pend - (pend - duration t) = duration t
        omega
      · show (0 : Int) ≤ if duration t ≥ pend - 1000 then 0 else pend - duration t
        split <;> omega
      · intro hfl
        have hc : duration t ≥ pend - 1000 := of_decide_eq_true hfl
        show |if duration t ≥ pend - 1000 then (0 : Int) else pend - duration t| < 1000
        rw [if_pos hc, abs_zero]
        norm_num
      · intro h0
        show decide (duration t ≥ pend - 1000) = true
        by_cases hc : duration t ≥ pend - 1000
        · exact decide_eq_true hc
        · exfalso
          have h0' : (if duration t ≥ pend - 1000 then (0 : Int) else pend - duration t)
              = 0 := h0
          rw [if_neg hc] at h0'
          omega
    · -- regime 1: connected task
      have hconn : isIndependent todos t = false := by
        cases hI : isIndependent todos t
        · rfl
        · exact absurd hI hi
      have hcs := regime1_shape hnd hids hmem hord t ht hconn
      rw [ConnShape, ← hsd0, ← hpend, ← hsd1] at hcs
      obtain ⟨lf, hsh, hlfge⟩ := hcs
      have hs2t : sd2 t.id = sd1 t.id := by
        by_cases hie : (independentTasks todos).isEmpty = true
        · rw [hsd2, if_pos hie]
        · have h2 : sd2 = (independentTasks todos).foldl (backwardIndependentStep pend) sd1 := by
            rw [hsd2]
            exact if_neg hie
          rw [h2]
          exact foldl_key_not_mem Todo.id _ (backwardIndependentStep_not_mem pend) _ sd1
            t.id (conn_not_mem_indep_ids hids ht hconn)
      have hto : t.id ∈ order := (hmem t.id).2 (List.mem_map.2 ⟨t, ht, rfl⟩)
      have hf := forward_spec hnd hids hord t ht hto
      rw [← hsd0] at hf
      have hESf : (sd0 t.id).earliestStart =
          (t.dependencies.map (fun d => (sd0 d).earliestFinish)).foldl max 0 :=
        congrArg ScheduleEntry.earliestStart hf
      have hEFf : (sd0 t.id).earliestFinish =
          (t.dependencies.map (fun d => (sd0 d).earliestFinish)).foldl max 0 + duration t :=
        congrArg ScheduleEntry.earliestFinish hf
      rw [hs2t, hsh]
      refine ⟨?_, ?_, ?_, ?_⟩
      · show lf - (lf - duration t) = duration t
        omega
      · show (0 : Int) ≤ lf - duration t - (sd0 t.id).earliestStart
        omega
      · intro hfl
        exact of_decide_eq_true hfl
      · intro h0
        show decide (|lf - duration t - (sd0 t.id).earliestStart| < 1000) = true
        refine decide_eq_true ?_
        have h0' : lf - duration t - (sd0 t.id).earliestStart = 0 := h0
        rw [h0', abs_zero]
        norm_num
  · -- regime 3: no task in the whole graph has a dependency
    rw [if_neg hany]
    have hanyF : todos.any (fun u => !u.dependencies.isEmpty) = false := by
      cases hA : todos.any (fun u => !u.dependencies.isEmpty)
      · rfl
      · exact absurd hA hany
    have hall : ∀ u ∈ todos, u.dependencies = [] := deps_nil_of_no_deps hanyF
    have hneE : todos.isEmpty = false := by
      cases todos with
      | nil => cases ht
      | cons a l => rfl
    rw [if_neg (show ¬ (todos.isEmpty = true) by rw [hneE]; exact Bool.false_ne_true)]
    set maxD := maxInt (todos.map Todo.estimatedDays) with hmaxD
    have hne : todos ≠ [] := by
      intro h
      rw [h] at ht
      cases ht
    have hpendEq : pend = maxD * (24 * 60 * 60 * 1000) := by
      rw [hpend, hsd0, hmaxD]
      exact pend_all_indep hnd hids hmem hord hall hne
    have hiT : isIndependent todos t = true := all_indep_of_no_deps hanyF t ht
    have hindeq : independentTasks todos = todos := indep_filter_eq_self hanyF
    have hie : ¬ ((independentTasks todos).isEmpty = true) := by
      rw [hindeq, hneE]
      exact Bool.false_ne_true
    have hs2 : sd2 = (independentTasks todos).foldl (backwardIndependentStep pend) sd1 := by
      rw [hsd2]
      exact if_neg hie
    have hsh2 := regime2_shape hnd hids hmem hord t ht hiT
    rw [← hsd0, ← hpend, ← hsd1, ← hs2] at hsh2
    obtain ⟨l1, l2, hsplit, hval, -⟩ := foldl_key_mem Todo.id
      (backwardAllIndependentStep maxD) (backwardAllIndependentStep_not_mem maxD)
      todos hids ht sd2
    rw [hval]
    have hmid : (l1.foldl (backwardAllIndependentStep maxD) sd2) t.id = sd2 t.id := by
      refine foldl_key_not_mem Todo.id _ (backwardAllIndependentStep_not_mem maxD)
        l1 sd2 t.id ?_
      have h2 := hids
      rw [hsplit, List.map_append, List.map_cons] at h2
      have hdisj := (List.nodup_append.1 h2).2.2
      exact fun hmem2 => hdisj hmem2 (List.mem_cons_self _ _)
    have hle : t.estimatedDays ≤ maxD := by
      rw [hmaxD]
      exact le_maxInt_of_mem (List.mem_map.2 ⟨t, ht, rfl⟩)
    by_cases hdm : t.estimatedDays = maxD
    · rw [backwardAllIndependentStep, if_pos hdm]
      simp only [Function.update_same]
      rw [hmid, hsh2]
      have hdurEq : duration t = pend := by
        rw [duration, hdm, hpendEq]
      refine ⟨?_, ?_, ?_, ?_⟩
      · show pend - (pend - duration t) = duration t
        omega
      · show (0 : Int) ≤ if duration t ≥ pend - 1000 then 0 else pend - duration t
        rw [if_pos (show duration t ≥ pend - 1000 by omega)]
      · intro _
        show |if duration t ≥ pend - 1000 then (0 : Int) else pend - duration t| < 1000
        rw [if_pos (show duration t ≥ pend - 1000 by omega), abs_zero]
        norm_num
      · intro _
        trivial
    · rw [backwardAllIndependentStep, if_neg hdm]
      simp only [Function.update_same]
      rw [hmid, hsh2]
      have hlt : t.estimatedDays < maxD := lt_of_le_of_ne hle hdm
      have hkey : duration t + 86400000 ≤ maxD * 86400000 := by
        have h1 : t.estimatedDays + 1 ≤ maxD := by omega
        have h2 := mul_le_mul_of_nonneg_right h1 (show (0 : Int) ≤ 86400000 by norm_num)
        calc duration t + 86400000 = (t.estimatedDays + 1) * 86400000 := by
              rw [duration]; ring
          _ ≤ maxD * 86400000 := h2
      have h3 : (24 * 60 * 60 * 1000 : Int) = 86400000 := by norm_num
      refine ⟨?_, ?_, ?_, ?_⟩
      · show (duration t + (maxD * (24 * 60 * 60 * 1000) - duration t))
            - (0 + (maxD * (24 * 60 * 60 * 1000) - duration t)) = duration t
        ring
      · show (0 : Int) ≤ maxD * (24 * 60 * 60 * 1000) - duration t
        rw [h3]
        omega
      · intro hfl
        exact Bool.noConfusion hfl
      · intro h0
        exfalso
        have h0' : maxD * (24 * 60 * 60 * 1000) - duration t = 0 := h0
        rw [h3] at h0'
        omega

/-- C6: whenever `calculateCriticalPath` returns schedule data (which it
does exactly for valid inputs), every task's slack is at least minus the
1s tolerance — indeed non-negative — in all three backward regimes. -/
theorem slack_nonneg (todos : List Todo) :
    ∀ sd, (calculateCriticalPath todos).scheduleData = some sd →
      ∀ t ∈ todos, -1000 ≤ (sd t.id).slack ∧ 0 ≤ (sd t.id).slack := by
  intro sd hsd
  rcases scheduleData_some_cases hsd with ⟨rfl, rfl⟩ | ⟨order, hne, hts, rfl, -, -⟩
  · intro t ht
    cases ht
  · intro t ht
    obtain ⟨-, h2, -, -⟩ := backward_shape hts t ht
    exact ⟨by omega, h2⟩

/-- Witness for C6 at `chainInput`. -/
theorem slack_nonneg_witness :
    (calculateCriticalPath chainInput).scheduleData =
        some (calculateBackwardPass chainInput [1, 2]
          (calculateForwardPass chainInput [1, 2])) ∧
      ∀ t ∈ chainInput,
        -1000 ≤ ((calculateBackwardPass chainInput [1, 2]
            (calculateForwardPass chainInput [1, 2])) t.id).slack ∧
        0 ≤ ((calculateBackwardPass chainInput [1, 2]
            (calculateForwardPass chainInput [1, 2])) t.id).slack :=
  ⟨rfl, slack_nonneg chainInput _ rfl⟩

/-- C10: in a valid result on a non-empty input, every task's latest
window spans exactly its duration: latestFinish − latestStart equals the
task's estimated days in milliseconds, in all three backward regimes. -/
theorem latest_window_eq_duration (todos : List Todo) (hne : todos ≠ [])
    (hval : (calculateCriticalPath todos).isValid = true) :
    ∀ sd, (calculateCriticalPath todos).scheduleData = some sd →
      ∀ t ∈ todos, (sd t.id).latestFinish - (sd t.id).latestStart = duration t := by
  intro sd hsd
  rcases scheduleData_some_cases hsd with ⟨h1, -⟩ | ⟨order, -, hts, rfl, -, -⟩
  · exact absurd h1 hne
  · intro t ht
    exact (backward_shape hts t ht).1

/-- Witness for C10 at `chainInput`. -/
theorem latest_window_eq_duration_witness :
    (chainInput ≠ [] ∧ (calculateCriticalPath chainInput).isValid = true ∧
      (calculateCriticalPath chainInput).scheduleData =
        some (calculateBackwardPass chainInput [1, 2]
          (calculateForwardPass chainInput [1, 2]))) ∧
      ∀ t ∈ chainInput,
        ((calculateBackwardPass chainInput [1, 2]
            (calculateForwardPass chainInput [1, 2])) t.id).latestFinish -
          ((calculateBackwardPass chainInput [1, 2]
            (calculateForwardPass chainInput [1, 2])) t.id).latestStart = duration t :=
  ⟨⟨by decide, by decide, rfl⟩,
    latest_window_eq_duration chainInput (by decide) (by decide) _ rfl⟩

/-- The schedule map of the `chainInput` run. -/
def chainSd : Nat → ScheduleEntry :=
  calculateBackwardPass chainInput [1, 2] (calculateForwardPass chainInput [1, 2])

/-- The critical path of the `chainInput` run. -/
def chainCp : List Nat := identifyCriticalPath chainInput chainSd

/-- C3: in a valid result on a non-empty input, every id on the returned
critical path belongs to a task whose slack is within the 1s tolerance
of zero, every task with zero slack appears on the path, and the path is
sorted ascending by earliest start. -/
theorem criticalPath_zero_slack_sorted (todos : List Todo) (hne : todos ≠ []) :
    ∀ cp sd, (calculateCriticalPath todos).criticalPath = some cp →
      (calculateCriticalPath todos).scheduleData = some sd →
      (∀ k ∈ cp, ∃ t ∈ todos, t.id = k ∧ |(sd k).slack| < 1000) ∧
      (∀ t ∈ todos, (sd t.id).slack = 0 → t.id ∈ cp) ∧
      cp.Sorted (fun a b => (sd a).earliestStart ≤ (sd b).earliestStart) := by
  intro cp sd hcp hsd
  rcases scheduleData_some_cases hsd with ⟨h1, -⟩ | ⟨order, -, hts, rfl, -, hcp2⟩
  · exact absurd h1 hne
  · rw [hcp] at hcp2
    have hcpe := Option.some.inj hcp2
    subst hcpe
    refine ⟨?_, ?_, ?_⟩
    · intro k hk
      rw [identifyCriticalPath, List.mem_insertionSort, List.mem_filter] at hk
      obtain ⟨hk1, hk2⟩ := hk
      obtain ⟨u, hu, huid⟩ := List.mem_map.1 (mem_keysOf.1 hk1)
      refine ⟨u, hu, huid, ?_⟩
      have h3 := (backward_shape hts u hu).2.2.1
      rw [huid] at h3
      exact h3 hk2
    · intro u hu h0
      have h4 := (backward_shape hts u hu).2.2.2 h0
      rw [identifyCriticalPath, List.mem_insertionSort, List.mem_filter]
      exact ⟨mem_keysOf.2 (List.mem_map.2 ⟨u, hu, rfl⟩), h4⟩
    · rw [identifyCriticalPath]
      haveI h5 : IsTotal Nat (fun a b =>
          ((calculateBackwardPass todos order (calculateForwardPass todos order)) a).earliestStart ≤
          ((calculateBackwardPass todos order (calculateForwardPass todos order)) b).earliestStart) :=
        ⟨fun a b => le_total _ _⟩
      haveI h6 : IsTrans Nat (fun a b =>
          ((calculateBackwardPass todos order (calculateForwardPass todos order)) a).earliestStart ≤
          ((calculateBackwardPass todos order (calculateForwardPass todos order)) b).earliestStart) :=
        ⟨fun a b c hab hbc => le_trans hab hbc⟩
      exact List.sorted_insertionSort _ _

/-- Witness for C3 at `chainInput`. -/
theorem criticalPath_zero_slack_sorted_witness :
    (chainInput ≠ [] ∧
      (calculateCriticalPath chainInput).criticalPath = some chainCp ∧
      (calculateCriticalPath chainInput).scheduleData = some chainSd) ∧
      ((∀ k ∈ chainCp, ∃ t ∈ chainInput, t.id = k ∧ |(chainSd k).slack| < 1000) ∧
       (∀ t ∈ chainInput, (chainSd t.id).slack = 0 → t.id ∈ chainCp) ∧
       chainCp.Sorted (fun a b =>
         (chainSd a).earliestStart ≤ (chainSd b).earliestStart)) :=
  ⟨⟨by decide, rfl, rfl⟩,
    criticalPath_zero_slack_sorted chainInput (by decide) chainCp chainSd rfl rfl⟩

end DepGraph
